import Mathlib

/-!
Verification of the Minesweeper rules engine (`components.py`).

The board-state model and its mutation operations are embedded shallowly:
`CellState`, `Cell` and `Board` mirror the Python classes field by field,
and every method of `Board` is translated into a Lean function of the same
name.  Python's `random.shuffle(pool)` is modelled by an explicit `shuffle`
parameter; theorems that depend on placement assume `∀ l, (shuffle l).Perm l`,
which is exactly the contract of an in-place shuffle.  The recursive flood
fill in `reveal` is translated with an explicit fuel argument; the public
`reveal` supplies fuel `cols * rows + 1`, which exceeds the number of cells
and hence the depth of any chain of recursive calls that each newly reveal
a cell.
-/

namespace Mines

/-- State of a single cell, mirroring the Python class `CellState`. -/
structure CellState where
  is_mine : Bool
  is_revealed : Bool
  is_flagged : Bool
  adjacent : Nat
deriving Repr, DecidableEq

instance : Inhabited CellState := ⟨⟨false, false, false, 0⟩⟩

/-- A positioned cell, mirroring the Python class `Cell`. -/
structure Cell where
  col : Int
  row : Int
  state : CellState
deriving Repr, DecidableEq

instance : Inhabited Cell := ⟨⟨0, 0, default⟩⟩

/-- The board, mirroring the Python class `Board`.  `mines_placed` embeds
the Python attribute `_mines_placed`. -/
structure Board where
  cols : Nat
  rows : Nat
  num_mines : Nat
  cells : List Cell
  mines_placed : Bool
  revealed_count : Nat
  game_over : Bool
  win : Bool
deriving Repr, DecidableEq

/-- `Board.__init__`: all cells fresh, row-major order
`[Cell(c, r) for r in range(rows) for c in range(cols)]`. -/
def Board.new (cols rows mines : Nat) : Board :=
  { cols := cols
    rows := rows
    num_mines := mines
    cells := (List.range rows).flatMap fun r : Nat =>
      (List.range cols).map fun c : Nat => ⟨(c : Int), (r : Int), default⟩
    mines_placed := false
    revealed_count := 0
    game_over := false
    win := false }

/-- `Board.index`: `row * self.cols + col`. -/
def Board.index (b : Board) (col row : Int) : Int :=
  row * (b.cols : Int) + col

/-- Bounds check on explicit dimensions:
`0 <= col < cols and 0 <= row < rows`. -/
def inB (cols rows : Nat) (col row : Int) : Bool :=
  decide (0 ≤ col ∧ col < (cols : Int) ∧ 0 ≤ row ∧ row < (rows : Int))

/-- `Board.is_inbounds`. -/
def Board.is_inbounds (b : Board) (col row : Int) : Bool :=
  inB b.cols b.rows col row

/-- The eight compass offsets, in the Python source's order. -/
def deltas : List (Int × Int) :=
  [(-1, -1), (0, -1), (1, -1), (-1, 0), (1, 0), (-1, 1), (0, 1), (1, 1)]

/-- `Board.neighbors` on explicit dimensions: the eight offsets applied to
`(col,row)`, filtered to in-bounds, preserving the offset order. -/
def nbrs (cols rows : Nat) (col row : Int) : List (Int × Int) :=
  (deltas.map fun d => (col + d.1, row + d.2)).filter fun p =>
    inB cols rows p.1 p.2

/-- `Board.neighbors`. -/
def Board.neighbors (b : Board) (col row : Int) : List (Int × Int) :=
  nbrs b.cols b.rows col row

/-- Read the state of the cell at `(col,row)`:
`self.cells[self.index(col,row)].state`.  (All reads in the source are
guarded by bounds checks, so the flat index is a genuine list index.) -/
def Board.getCell (b : Board) (col row : Int) : CellState :=
  (b.cells.getD (b.index col row).toNat default).state

/-- Point update of one cell in the backing list, keeping its coordinates. -/
def listModify (l : List Cell) (n : Nat) (f : CellState → CellState) :
    List Cell :=
  match l, n with
  | [], _ => []
  | x :: xs, 0 => ⟨x.col, x.row, f x.state⟩ :: xs
  | x :: xs, n + 1 => x :: listModify xs n f

/-- Mutate the state of the cell at `(col,row)` in place
(`self.cells[self.index(col,row)].state.… = …`). -/
def Board.modifyState (b : Board) (col row : Int)
    (f : CellState → CellState) : Board :=
  { b with cells := listModify b.cells (b.index col row).toNat f }

/-- All board coordinates in row-major order:
`[(c, r) for r in range(self.rows) for c in range(self.cols)]`. -/
def allPositions (cols rows : Nat) : List (Int × Int) :=
  (List.range rows).flatMap fun r : Nat =>
    (List.range cols).map fun c : Nat => ((c : Int), (r : Int))

/-- The adjacency-count pass of `Board.place_mines`: for every non-mine
cell (in row-major order) set `adjacent` to the number of its in-bounds
neighbors whose `is_mine` is true, reading from the board being updated
exactly as the Python loop does. -/
def Board.compute_adjacents (b : Board) : Board :=
  (allPositions b.cols b.rows).foldl
    (fun acc p =>
      let cell := acc.getCell p.1 p.2
      if cell.is_mine = false then
        let mine_count :=
          ((acc.neighbors p.1 p.2).filter fun q =>
            (acc.getCell q.1 q.2).is_mine).length
        acc.modifyState p.1 p.2 fun s => { s with adjacent := mine_count }
      else acc)
    b

/-- `Board.place_mines`: forbid the safe cell and its neighbors, shuffle
the remaining pool, mark the first `num_mines` positions as mines, compute
adjacency counts, then set the placement flag. -/
def Board.place_mines (b : Board) (safe_col safe_row : Int)
    (shuffle : List (Int × Int) → List (Int × Int)) : Board :=
  let all_positions := allPositions b.cols b.rows
  let forbidden := (safe_col, safe_row) :: b.neighbors safe_col safe_row
  let pool := all_positions.filter fun p => decide (p ∉ forbidden)
  let pool := shuffle pool
  let mine_positions := pool.take b.num_mines
  let b1 := mine_positions.foldl
    (fun acc p => acc.modifyState p.1 p.2 fun s => { s with is_mine := true })
    b
  let b2 := b1.compute_adjacents
  { b2 with mines_placed := true }

/-- `Board._reveal_all_mines`: set `is_revealed` on every mine cell. -/
def Board.reveal_all_mines (b : Board) : Board :=
  { b with cells := b.cells.map fun c =>
      if c.state.is_mine then ⟨c.col, c.row, { c.state with is_revealed := true }⟩
      else c }

/-- `Board._check_win`: when `revealed_count == cols*rows - num_mines`
(Python integer subtraction) and the game is not over, set `win` and
force-reveal every unrevealed non-mine cell. -/
def Board.check_win (b : Board) : Board :=
  if (b.revealed_count : Int) = (b.cols : Int) * (b.rows : Int) - (b.num_mines : Int)
      ∧ b.game_over = false then
    { b with
      win := true
      cells := b.cells.map fun c =>
        if c.state.is_revealed = false ∧ c.state.is_mine = false then
          ⟨c.col, c.row, { c.state with is_revealed := true }⟩
        else c }
  else b

/-- `Board.reveal`, with explicit fuel for the recursive flood fill.  Each
constructor-level step mirrors one statement of the Python method. -/
def revealFuel (shuffle : List (Int × Int) → List (Int × Int)) :
    Nat → Board → Int → Int → Board
  | 0, b, _, _ => b
  | n + 1, b, col, row =>
    if b.is_inbounds col row = false then b
    else
      let b := if b.mines_placed then b else b.place_mines col row shuffle
      let cell := b.getCell col row
      if cell.is_revealed || cell.is_flagged then b
      else
        let b := b.modifyState col row fun s => { s with is_revealed := true }
        let b := { b with revealed_count := b.revealed_count + 1 }
        if cell.is_mine then
          ({ b with game_over := true }).reveal_all_mines
        else
          let b :=
            if cell.adjacent = 0 then
              (nbrs b.cols b.rows col row).foldl
                (fun acc p => revealFuel shuffle n acc p.1 p.2) b
            else b
          b.check_win

/-- `Board.reveal`: run the flood fill with fuel exceeding the cell count. -/
def Board.reveal (b : Board) (col row : Int)
    (shuffle : List (Int × Int) → List (Int × Int)) : Board :=
  revealFuel shuffle (b.cols * b.rows + 1) b col row

/-- `Board.toggle_flag`. -/
def Board.toggle_flag (b : Board) (col row : Int) : Board :=
  if b.is_inbounds col row = false then b
  else
    let cell := b.getCell col row
    if cell.is_revealed then b
    else
      ((b.modifyState col row fun s =>
        { s with is_flagged := !s.is_flagged })).check_win

/-- `Board.flagged_count`. -/
def Board.flagged_count (b : Board) : Nat :=
  (b.cells.filter fun c => c.state.is_flagged).length

/-- Number of cells whose `is_revealed` is true. -/
def Board.revealedCells (b : Board) : Nat :=
  (b.cells.filter fun c => c.state.is_revealed).length

/-- Number of cells whose `is_mine` is true. -/
def Board.mineCells (b : Board) : Nat :=
  (b.cells.filter fun c => c.state.is_mine).length

/-- Board states reachable from a constructed board by any sequence of
`reveal` (with an arbitrary permutation in place of `random.shuffle`) and
`toggle_flag` calls. -/
inductive Reachable : Board → Prop where
  | new : ∀ cols rows mines, Reachable (Board.new cols rows mines)
  | reveal : ∀ b col row shuffle, (∀ l, (shuffle l).Perm l) →
      Reachable b → Reachable (b.reveal col row shuffle)
  | flag : ∀ b col row, Reachable b → Reachable (b.toggle_flag col row)

/-- Board states reachable from `b` by any (possibly empty) further
sequence of `reveal` and `toggle_flag` calls. -/
inductive ReachFrom (b : Board) : Board → Prop where
  | refl : ReachFrom b b
  | reveal : ∀ b' col row shuffle, (∀ l, (shuffle l).Perm l) →
      ReachFrom b b' → ReachFrom b (b'.reveal col row shuffle)
  | flag : ∀ b' col row, ReachFrom b b' → ReachFrom b (b'.toggle_flag col row)

/-- The backing list has exactly one cell per coordinate. -/
def WF (b : Board) : Prop := b.cells.length = b.rows * b.cols

/-- The aggregate `revealed_count` agrees with the cells. -/
def CountConsistent (b : Board) : Prop := b.revealed_count = b.revealedCells

/-- No mine has been revealed. -/
def RevealedSafe (b : Board) : Prop :=
  ∀ c ∈ b.cells, c.state.is_revealed = true → c.state.is_mine = false

/-- Exactly `num_mines` cells carry a mine. -/
def MinesExact (b : Board) : Prop := b.mineCells = b.num_mines

/-- Stored adjacency counts agree with the actual mine layout. -/
def AdjCorrect (b : Board) : Prop :=
  ∀ c r : Int, inB b.cols b.rows c r = true →
    (b.getCell c r).is_mine = false →
    (b.getCell c r).adjacent =
      ((nbrs b.cols b.rows c r).filter fun q =>
        (b.getCell q.1 q.2).is_mine).length

/-- A cell that a reveal may newly reach: in bounds, not yet revealed and
not flagged. -/
def okAt (b : Board) (col row : Int) : Prop :=
  inB b.cols b.rows col row = true ∧
    (b.getCell col row).is_revealed = false ∧
    (b.getCell col row).is_flagged = false

/-- The flood region of a click at `(col,row)` in board `b`: the cells
reachable from the click through unrevealed, unflagged cells, where
propagation continues only across cells whose stored `adjacent` is `0`.
Cells of the region with positive `adjacent` are its boundary. -/
inductive InRegion (b : Board) (col row : Int) : Int → Int → Prop where
  | base : okAt b col row → InRegion b col row col row
  | step : ∀ p q p' q', InRegion b col row p q →
      (b.getCell p q).adjacent = 0 →
      (p', q') ∈ nbrs b.cols b.rows p q →
      okAt b p' q' → InRegion b col row p' q'

/-- Example run: a 3-wide, 1-high board whose single mine ends at `(2,0)`;
the first reveal wins the game. -/
def exWin : Board := (Board.new 3 1 1).reveal 0 0 id

/-- Example run: revealing the mine after `exWin` has already won. -/
def exWinThenLose : Board := exWin.reveal 2 0 id

/-- Example run: a fresh 4-wide board with the cell `(3,0)` flagged. -/
def exFlagged : Board := (Board.new 4 1 1).toggle_flag 3 0

/-- Example run: revealing the flagged cell of `exFlagged` (triggers mine
placement before the flag guard returns). -/
def exFlaggedReveal : Board := exFlagged.reveal 3 0 id

/-- Example run: 5-wide, 1-high board with two mines at `(2,0)`, `(3,0)`
after the first reveal at `(0,0)`. -/
def exMid : Board := (Board.new 5 1 2).reveal 0 0 id

/-- Example run: `exMid` after revealing the mine at `(2,0)`. -/
def exLost : Board := exMid.reveal 2 0 id

/-- Example run: `exMid` with the mine at `(3,0)` flagged. -/
def exMidFlag : Board := exMid.toggle_flag 3 0

/-- Example run: `exMidFlag` after revealing the mine at `(2,0)`. -/
def exMidFlagLost : Board := exMidFlag.reveal 2 0 id

/-- Example: a 2-by-2 board configured with as many mines as cells. -/
def exDegenerate : Board := Board.new 2 2 4

/-- Example run: an out-of-bounds reveal on `exDegenerate`. -/
def exDegenerateReveal : Board := exDegenerate.reveal 2 2 id

/-- Example run: one flag toggle on `exDegenerate`. -/
def exDegenerateFlag : Board := exDegenerate.toggle_flag 0 0

/-- Example run: toggling the same cell of `exDegenerate` twice. -/
def exDegenerateFlagFlag : Board := exDegenerateFlag.toggle_flag 0 0

/-- Example run: a 5-by-5 board with 17 requested mines (the pool only has
16 candidates): flag `(1,1)` and `(1,2)`, first-reveal at `(2,2)`. -/
def exUnder : Board :=
  (((Board.new 5 5 17).toggle_flag 1 1).toggle_flag 1 2).reveal 2 2 id

/-- Example run: `exUnder` with `(1,2)` unflagged again. -/
def exUnderMid : Board := exUnder.toggle_flag 1 2

/-- Example run: `exUnderMid` after revealing `(1,2)`, a non-mine cell with
positive stored adjacency. -/
def exUnderReveal : Board := exUnderMid.reveal 1 2 id

/-- The flat list index of in-bounds `(c,r)` as a natural number. -/
def idxN (cols : Nat) (c r : Int) : Nat := (r * (cols : Int) + c).toNat

/-- The two successful-reveal statements of `Board.reveal`
(`cell.state.is_revealed = True; self.revealed_count += 1`), shared by the
mine and non-mine branches.  Definitionally equal to the corresponding
steps inside `revealFuel`. -/
def Board.markRevealed (b : Board) (c r : Int) : Board :=
  let b1 := b.modifyState c r fun s => { s with is_revealed := true }
  { b1 with revealed_count := b1.revealed_count + 1 }

/-- Number of cells whose `is_revealed` is false. -/
def Board.unrevealedCells (b : Board) : Nat :=
  (b.cells.filter fun c => c.state.is_revealed = false).length

/-- The invariant pack under which the flood fill is well behaved: a
well-formed backing list, mines placed, a truthful `revealed_count`, no
revealed mine, exactly `num_mines` mines, and truthful stored adjacency
counts.  All of these hold after a correctly configured placement. -/
def Consistent (b : Board) : Prop :=
  WF b ∧ b.mines_placed = true ∧ CountConsistent b ∧ RevealedSafe b ∧
    MinesExact b ∧ AdjCorrect b

/-- `b'` has the same number of cells as `b` and every cell revealed in
`b` is still revealed in `b'`. -/
def RevMono (b b' : Board) : Prop :=
  b'.cells.length = b.cells.length ∧
    ∀ i : Nat, (b.cells.getD i default).state.is_revealed = true →
      (b'.cells.getD i default).state.is_revealed = true

/-- The cell-level frame shared by `b` and `b'`: equal dimensions, equal
mine layout, equal stored adjacency counts and equal flags. -/
def FramesEq (b b' : Board) : Prop :=
  b'.cols = b.cols ∧ b'.rows = b.rows ∧
    b'.cells.map (fun x => x.state.is_mine) =
      b.cells.map (fun x => x.state.is_mine) ∧
    b'.cells.map (fun x => x.state.adjacent) =
      b.cells.map (fun x => x.state.adjacent) ∧
    b'.cells.map (fun x => x.state.is_flagged) =
      b.cells.map (fun x => x.state.is_flagged)

/-- What one `revealFuel` call does on a consistent board whose clicked
cell, when the guards pass, is not a mine: the invariant pack and the
frame (flags, mines, adjacency, dimensions, `game_over`) are preserved,
every newly revealed cell lies in the flood region of the click, the
clicked cell ends up revealed whenever the guards pass, and every newly
revealed zero-adjacent cell has all of its unflagged neighbors
revealed. -/
def FloodSpec (b b' : Board) (c r : Int) : Prop :=
  Consistent b' ∧ FramesEq b b' ∧ RevMono b b' ∧ b'.game_over = b.game_over ∧
    (∀ x y : Int, inB b.cols b.rows x y = true →
      (b'.getCell x y).is_revealed = true →
      (b.getCell x y).is_revealed = true ∨ InRegion b c r x y) ∧
    (inB b.cols b.rows c r = true →
      (b.getCell c r).is_revealed = false →
      (b.getCell c r).is_flagged = false →
      (b'.getCell c r).is_revealed = true) ∧
    (∀ x y : Int, inB b.cols b.rows x y = true →
      (b.getCell x y).is_revealed = false →
      (b'.getCell x y).is_revealed = true →
      (b.getCell x y).adjacent = 0 →
      ∀ p q : Int, (p, q) ∈ nbrs b.cols b.rows x y →
        (b.getCell p q).is_flagged = false →
        (b'.getCell p q).is_revealed = true)

/-- Invariant carried by the flood-fill fold across the clicked cell's
neighbor list: `b` is the pre-click board, `(c,r)` the click, `L` the
neighbors not yet processed and `acc` the accumulator.  The stability
clause is allowed to fail at the clicked cell itself for neighbors still
waiting in `L`. -/
def FloodInv (b : Board) (c r : Int) (L : List (Int × Int))
    (acc : Board) : Prop :=
  Consistent acc ∧ FramesEq b acc ∧ RevMono (b.markRevealed c r) acc ∧
    acc.game_over = b.game_over ∧
    (∀ x y : Int, inB b.cols b.rows x y = true →
      (acc.getCell x y).is_revealed = true →
      (b.getCell x y).is_revealed = true ∨ InRegion b c r x y) ∧
    (∀ x y : Int, inB b.cols b.rows x y = true →
      (b.getCell x y).is_revealed = false →
      (acc.getCell x y).is_revealed = true →
      (b.getCell x y).adjacent = 0 →
      ∀ p q : Int, (p, q) ∈ nbrs b.cols b.rows x y →
        (b.getCell p q).is_flagged = false →
        ((acc.getCell p q).is_revealed = true ∨
          (x = c ∧ y = r ∧ (p, q) ∈ L)))

/-- A hand-built consistent 3-wide, 1-high board: a mine at `(2,0)`,
truthful adjacency counts, nothing revealed or flagged, counters and
flags as after a correct placement. -/
def cW : Board :=
  { cols := 3
    rows := 1
    num_mines := 1
    cells := [⟨0, 0, ⟨false, false, false, 0⟩⟩,
      ⟨1, 0, ⟨false, false, false, 1⟩⟩,
      ⟨2, 0, ⟨true, false, false, 0⟩⟩]
    mines_placed := true
    revealed_count := 0
    game_over := false
    win := false }

end Mines

namespace Mines

/-- The identity is a permissible stand-in for `random.shuffle`. -/
theorem perm_id : ∀ l : List (Int × Int), (id l).Perm l :=
  fun l => List.Perm.refl l

theorem reach_exWin : Reachable exWin :=
  Reachable.reveal _ 0 0 id perm_id (Reachable.new 3 1 1)

theorem reach_exFlagged : Reachable exFlagged :=
  Reachable.flag _ 3 0 (Reachable.new 4 1 1)

theorem reach_exMid : Reachable exMid :=
  Reachable.reveal _ 0 0 id perm_id (Reachable.new 5 1 2)

theorem reach_exLost : Reachable exLost :=
  Reachable.reveal _ 2 0 id perm_id reach_exMid

theorem reach_exMidFlag : Reachable exMidFlag :=
  Reachable.flag _ 3 0 reach_exMid

theorem reach_exDegenerate : Reachable exDegenerate :=
  Reachable.new 2 2 4

theorem reach_exUnderMid : Reachable exUnderMid :=
  Reachable.flag _ 1 2
    (Reachable.reveal _ 2 2 id perm_id
      (Reachable.flag _ 1 2 (Reachable.flag _ 1 1 (Reachable.new 5 5 17))))

/-- C1 is false as stated: on the reachable board `exWin` the game is won,
yet a subsequent `reveal` of the remaining mine still mutates cell and
counter state and additionally sets `game_over`, so `game_over` and `win`
are simultaneously true and the won state was not terminal. -/
theorem c1_counterexample :
    Reachable exWin ∧ exWin.win = true ∧ exWin.game_over = false ∧
    exWinThenLose.win = true ∧ exWinThenLose.game_over = true ∧
    exWinThenLose.revealed_count ≠ exWin.revealed_count ∧
    (exWinThenLose.getCell 2 0).is_revealed = true ∧
    (exWin.getCell 2 0).is_revealed = false :=
  ⟨reach_exWin, by decide⟩

/-- C2 is false as stated: revealing the flagged cell `(3,0)` of the fresh
reachable board `exFlagged` returns without revealing anything, but first
runs mine placement, so `mines_placed` and the mine layout change. -/
theorem c2_counterexample :
    Reachable exFlagged ∧ exFlagged.is_inbounds 3 0 = true ∧
    (exFlagged.getCell 3 0).is_flagged = true ∧
    exFlagged.mines_placed = false ∧
    exFlaggedReveal.mines_placed = true ∧
    (exFlaggedReveal.getCell 0 0).is_mine = true ∧
    (exFlagged.getCell 0 0).is_mine = false :=
  ⟨reach_exFlagged, by decide⟩

/-- C4 is false as stated: after the loss on the reachable board `exLost`,
`_reveal_all_mines` has revealed the second mine without incrementing
`revealed_count`, so the counter (3) differs from the number of revealed
cells (4). -/
theorem c4_counterexample :
    Reachable exLost ∧ exLost.revealed_count = 3 ∧ exLost.revealedCells = 4 :=
  ⟨reach_exLost, by decide⟩

/-- C7 is false as stated: on the reachable degenerate board
`Board.new 2 2 4`, an out-of-bounds `reveal` completes with
`revealed_count == cols*rows - num_mines` (both are 0) and
`game_over == false`, yet `win` is false and the non-mine cell `(0,0)` is
unrevealed. -/
theorem c7_counterexample :
    Reachable exDegenerate ∧
    (exDegenerateReveal.revealed_count : Int) =
      (exDegenerateReveal.cols : Int) * (exDegenerateReveal.rows : Int) -
        (exDegenerateReveal.num_mines : Int) ∧
    exDegenerateReveal.game_over = false ∧
    exDegenerateReveal.win = false ∧
    (exDegenerateReveal.getCell 0 0).is_mine = false ∧
    (exDegenerateReveal.getCell 0 0).is_revealed = false :=
  ⟨reach_exDegenerate, by decide⟩

set_option maxRecDepth 40000 in
/-- C8 is false as stated: on the reachable board `exUnderMid` (mines
placed, game not over, not won), revealing `(1,2)` — in bounds, unrevealed,
unflagged, not a mine, stored adjacency 3 > 0 — does not change only that
cell: the win check fires and force-reveals the unrelated cell `(1,1)`. -/
theorem c8_counterexample :
    Reachable exUnderMid ∧ exUnderMid.mines_placed = true ∧
    exUnderMid.game_over = false ∧ exUnderMid.win = false ∧
    exUnderMid.is_inbounds 1 2 = true ∧
    (exUnderMid.getCell 1 2).is_revealed = false ∧
    (exUnderMid.getCell 1 2).is_flagged = false ∧
    (exUnderMid.getCell 1 2).is_mine = false ∧
    (exUnderMid.getCell 1 2).adjacent = 3 ∧
    (exUnderReveal.getCell 1 1).is_revealed = true ∧
    (exUnderMid.getCell 1 1).is_revealed = false :=
  ⟨reach_exUnderMid, by decide⟩

/-- C9 is false as stated: on the reachable degenerate board
`Board.new 2 2 4`, toggling a flag on the unrevealed cell `(0,0)` also
fires the win check, which force-reveals the unrelated cell `(1,1)`; and
because the sweep reveals `(0,0)` itself, toggling it twice does not
restore `is_flagged` to false. -/
theorem c9_counterexample :
    Reachable exDegenerate ∧ exDegenerate.is_inbounds 0 0 = true ∧
    (exDegenerate.getCell 0 0).is_revealed = false ∧
    (exDegenerate.getCell 0 0).is_flagged = false ∧
    (exDegenerateFlag.getCell 1 1).is_revealed = true ∧
    (exDegenerate.getCell 1 1).is_revealed = false ∧
    (exDegenerateFlagFlag.getCell 0 0).is_flagged = true :=
  ⟨reach_exDegenerate, by decide⟩

end Mines

namespace Mines

theorem length_listModify (l : List Cell) (n : Nat) (f : CellState → CellState) :
    (listModify l n f).length = l.length := by
  induction l generalizing n with
  | nil => rfl
  | cons x xs ih =>
    cases n with
    | zero => rfl
    | succ m => simp only [listModify, List.length_cons, ih]

theorem getElem?_listModify (l : List Cell) (n m : Nat) (f : CellState → CellState) :
    (listModify l n f)[m]? =
      if m = n then l[m]?.map (fun x => ⟨x.col, x.row, f x.state⟩) else l[m]? := by
  induction l generalizing n m with
  | nil => simp [listModify]
  | cons x xs ih =>
    cases n with
    | zero =>
      cases m with
      | zero => simp [listModify]
      | succ k => simp [listModify]
    | succ n' =>
      cases m with
      | zero => simp [listModify]
      | succ k => simpa [listModify] using ih n' k

theorem map_listModify {α : Type} (g : Cell → α) (l : List Cell) (n : Nat)
    (f : CellState → CellState)
    (h : ∀ x : Cell, g ⟨x.col, x.row, f x.state⟩ = g x) :
    (listModify l n f).map g = l.map g := by
  induction l generalizing n with
  | nil => rfl
  | cons x xs ih =>
    cases n with
    | zero => simp [listModify, h]
    | succ m => simp [listModify, ih]

theorem countP_listModify_flip (p : Cell → Bool) (l : List Cell) (n : Nat)
    (f : CellState → CellState) (hn : n < l.length)
    (hnew : ∀ x : Cell, l[n]? = some x →
      p ⟨x.col, x.row, f x.state⟩ = true ∧ p x = false) :
    (listModify l n f).countP p = l.countP p + 1 := by
  induction l generalizing n with
  | nil => simp at hn
  | cons x xs ih =>
    cases n with
    | zero =>
      have hx := hnew x (by simp)
      simp [listModify, List.countP_cons, hx.1, hx.2]
    | succ m =>
      have hm : m < xs.length := by simpa using hn
      have := ih m hm (by intro y hy; exact hnew y (by simpa using hy))
      simp only [listModify, List.countP_cons, this]
      omega

theorem foldl_pres {α β γ : Type} (g : β → γ) (F : β → α → β)
    (l : List α) (b : β) (h : ∀ acc x, x ∈ l → g (F acc x) = g acc) :
    g (l.foldl F b) = g b := by
  induction l generalizing b with
  | nil => rfl
  | cons x xs ih =>
    rw [List.foldl_cons, ih _ (fun acc y hy => h acc y (List.mem_cons_of_mem _ hy)),
      h b x (List.mem_cons_self _ _)]

theorem foldl_invar {α β : Type} (P : β → Prop) (F : β → α → β)
    (l : List α) (b : β) (hb : P b) (h : ∀ acc x, x ∈ l → P acc → P (F acc x)) :
    P (l.foldl F b) := by
  induction l generalizing b with
  | nil => exact hb
  | cons x xs ih =>
    exact ih _ (h b x (List.mem_cons_self _ _) hb)
      (fun acc y hy => h acc y (List.mem_cons_of_mem _ hy))

theorem inB_iff {cols rows : Nat} {c r : Int} :
    inB cols rows c r = true ↔
      0 ≤ c ∧ c < (cols : Int) ∧ 0 ≤ r ∧ r < (rows : Int) := by
  simp [inB]

theorem idxN_eq {cols rows : Nat} {c r : Int} (h : inB cols rows c r = true) :
    idxN cols c r = r.toNat * cols + c.toNat := by
  obtain ⟨h1, h2, h3, h4⟩ := inB_iff.mp h
  lift c to Nat using h1 with cn
  lift r to Nat using h3 with rn
  simp only [idxN]
  norm_cast

theorem idxN_lt {cols rows : Nat} {c r : Int} (h : inB cols rows c r = true) :
    idxN cols c r < rows * cols := by
  obtain ⟨h1, h2, h3, h4⟩ := inB_iff.mp h
  rw [idxN_eq h]
  have hc : c.toNat < cols := by omega
  have hr : r.toNat + 1 ≤ rows := by omega
  calc r.toNat * cols + c.toNat < r.toNat * cols + cols := by omega
    _ = (r.toNat + 1) * cols := by ring
    _ ≤ rows * cols := Nat.mul_le_mul_right _ hr

theorem idxN_inj {cols rows : Nat} {c r c' r' : Int}
    (h : inB cols rows c r = true) (h' : inB cols rows c' r' = true)
    (he : idxN cols c r = idxN cols c' r') : c = c' ∧ r = r' := by
  obtain ⟨h1, h2, h3, h4⟩ := inB_iff.mp h
  obtain ⟨h5, h6, h7, h8⟩ := inB_iff.mp h'
  rw [idxN_eq h, idxN_eq h'] at he
  have hcols : 0 < cols := by omega
  have hr : r.toNat = r'.toNat := by
    have d1 : (c.toNat + r.toNat * cols) / cols = r.toNat := by
      rw [Nat.add_mul_div_right _ _ hcols, Nat.div_eq_of_lt (by omega)]
      omega
    have d2 : (c'.toNat + r'.toNat * cols) / cols = r'.toNat := by
      rw [Nat.add_mul_div_right _ _ hcols, Nat.div_eq_of_lt (by omega)]
      omega
    rw [← d1, ← d2, Nat.add_comm c.toNat, Nat.add_comm c'.toNat, he]
  have hc : c.toNat = c'.toNat := by
    rw [hr] at he
    exact Nat.add_left_cancel he
  omega

end Mines

namespace Mines

@[simp] theorem modifyState_cols (b : Board) (c r : Int) (f : CellState → CellState) :
    (b.modifyState c r f).cols = b.cols := rfl

@[simp] theorem modifyState_rows (b : Board) (c r : Int) (f : CellState → CellState) :
    (b.modifyState c r f).rows = b.rows := rfl

@[simp] theorem modifyState_num_mines (b : Board) (c r : Int) (f : CellState → CellState) :
    (b.modifyState c r f).num_mines = b.num_mines := rfl

@[simp] theorem modifyState_mines_placed (b : Board) (c r : Int) (f : CellState → CellState) :
    (b.modifyState c r f).mines_placed = b.mines_placed := rfl

@[simp] theorem modifyState_revealed_count (b : Board) (c r : Int) (f : CellState → CellState) :
    (b.modifyState c r f).revealed_count = b.revealed_count := rfl

@[simp] theorem modifyState_game_over (b : Board) (c r : Int) (f : CellState → CellState) :
    (b.modifyState c r f).game_over = b.game_over := rfl

@[simp] theorem modifyState_win (b : Board) (c r : Int) (f : CellState → CellState) :
    (b.modifyState c r f).win = b.win := rfl

theorem modifyState_cells (b : Board) (c r : Int) (f : CellState → CellState) :
    (b.modifyState c r f).cells = listModify b.cells (idxN b.cols c r) f := rfl

@[simp] theorem modifyState_length (b : Board) (c r : Int) (f : CellState → CellState) :
    (b.modifyState c r f).cells.length = b.cells.length := by
  rw [modifyState_cells, length_listModify]

@[simp] theorem ram_cols (b : Board) : b.reveal_all_mines.cols = b.cols := rfl

@[simp] theorem ram_rows (b : Board) : b.reveal_all_mines.rows = b.rows := rfl

@[simp] theorem ram_num_mines (b : Board) : b.reveal_all_mines.num_mines = b.num_mines := rfl

@[simp] theorem ram_mines_placed (b : Board) : b.reveal_all_mines.mines_placed = b.mines_placed := rfl

@[simp] theorem ram_revealed_count (b : Board) : b.reveal_all_mines.revealed_count = b.revealed_count := rfl

@[simp] theorem ram_game_over (b : Board) : b.reveal_all_mines.game_over = b.game_over := rfl

@[simp] theorem ram_win (b : Board) : b.reveal_all_mines.win = b.win := rfl

@[simp] theorem ram_length (b : Board) : b.reveal_all_mines.cells.length = b.cells.length := by
  simp [Board.reveal_all_mines]

@[simp] theorem check_win_cols (b : Board) : b.check_win.cols = b.cols := by
  unfold Board.check_win; split <;> rfl

@[simp] theorem check_win_rows (b : Board) : b.check_win.rows = b.rows := by
  unfold Board.check_win; split <;> rfl

@[simp] theorem check_win_num_mines (b : Board) : b.check_win.num_mines = b.num_mines := by
  unfold Board.check_win; split <;> rfl

@[simp] theorem check_win_mines_placed (b : Board) : b.check_win.mines_placed = b.mines_placed := by
  unfold Board.check_win; split <;> rfl

@[simp] theorem check_win_revealed_count (b : Board) : b.check_win.revealed_count = b.revealed_count := by
  unfold Board.check_win; split <;> rfl

@[simp] theorem check_win_game_over (b : Board) : b.check_win.game_over = b.game_over := by
  unfold Board.check_win; split <;> rfl

@[simp] theorem check_win_length (b : Board) : b.check_win.cells.length = b.cells.length := by
  unfold Board.check_win; split <;> simp

theorem getCell_def (b : Board) (c r : Int) :
    b.getCell c r = ((b.cells[idxN b.cols c r]?).getD default).state := by
  rw [Board.getCell, List.getD_eq_getElem?_getD]; rfl

theorem getCell_proj {α : Type} (g : CellState → α) {b b' : Board}
    (hcols : b'.cols = b.cols)
    (hmap : b'.cells.map (fun c => g c.state) = b.cells.map (fun c => g c.state)) :
    ∀ c r : Int, g (b'.getCell c r) = g (b.getCell c r) := by
  intro c r
  rw [getCell_def, getCell_def, hcols]
  have hlen : b'.cells.length = b.cells.length := by
    have := congrArg List.length hmap; simpa using this
  have h := congrArg (fun l => l[idxN b.cols c r]?) hmap
  simp only [List.getElem?_map] at h
  rcases h1 : b'.cells[idxN b.cols c r]? with _ | x
  · have h2 : b.cells[idxN b.cols c r]? = none := by
      rw [List.getElem?_eq_none_iff] at h1 ⊢; omega
    rw [h2]
  · rw [h1] at h
    rcases h2 : b.cells[idxN b.cols c r]? with _ | y
    · rw [h2] at h; simp at h
    · rw [h2] at h; simp at h; simpa using h

theorem getCell_modifyState_self {b : Board} (hwf : WF b) {c r : Int}
    (h : inB b.cols b.rows c r = true) (f : CellState → CellState) :
    (b.modifyState c r f).getCell c r = f (b.getCell c r) := by
  have hlt : idxN b.cols c r < b.cells.length := by rw [hwf]; exact idxN_lt h
  rw [getCell_def, getCell_def]
  simp only [modifyState_cols, modifyState_cells, getElem?_listModify, if_pos rfl,
    List.getElem?_eq_getElem hlt]
  rfl

theorem getCell_modifyState_other {b : Board} {c r c' r' : Int}
    (hne : idxN b.cols c' r' ≠ idxN b.cols c r) (f : CellState → CellState) :
    (b.modifyState c r f).getCell c' r' = b.getCell c' r' := by
  rw [getCell_def, getCell_def]
  simp only [modifyState_cols, modifyState_cells, getElem?_listModify, if_neg hne]

end Mines

namespace Mines

theorem cpa_cols (b : Board) : b.compute_adjacents.cols = b.cols := by
  unfold Board.compute_adjacents
  exact foldl_pres Board.cols _ _ _ (fun acc p _ => by dsimp only; split <;> simp)

theorem cpa_rows (b : Board) : b.compute_adjacents.rows = b.rows := by
  unfold Board.compute_adjacents
  exact foldl_pres Board.rows _ _ _ (fun acc p _ => by dsimp only; split <;> simp)

theorem cpa_num_mines (b : Board) : b.compute_adjacents.num_mines = b.num_mines := by
  unfold Board.compute_adjacents
  exact foldl_pres Board.num_mines _ _ _ (fun acc p _ => by dsimp only; split <;> simp)

theorem cpa_mines_placed (b : Board) : b.compute_adjacents.mines_placed = b.mines_placed := by
  unfold Board.compute_adjacents
  exact foldl_pres Board.mines_placed _ _ _ (fun acc p _ => by dsimp only; split <;> simp)

theorem cpa_revealed_count (b : Board) : b.compute_adjacents.revealed_count = b.revealed_count := by
  unfold Board.compute_adjacents
  exact foldl_pres Board.revealed_count _ _ _ (fun acc p _ => by dsimp only; split <;> simp)

theorem cpa_game_over (b : Board) : b.compute_adjacents.game_over = b.game_over := by
  unfold Board.compute_adjacents
  exact foldl_pres Board.game_over _ _ _ (fun acc p _ => by dsimp only; split <;> simp)

theorem cpa_win (b : Board) : b.compute_adjacents.win = b.win := by
  unfold Board.compute_adjacents
  exact foldl_pres Board.win _ _ _ (fun acc p _ => by dsimp only; split <;> simp)

theorem cpa_length (b : Board) : b.compute_adjacents.cells.length = b.cells.length := by
  unfold Board.compute_adjacents
  exact foldl_pres (fun x : Board => x.cells.length) _ _ _
    (fun acc p _ => by dsimp only; split <;> simp)

theorem cpa_mines_map (b : Board) :
    b.compute_adjacents.cells.map (fun x => x.state.is_mine) =
      b.cells.map (fun x => x.state.is_mine) := by
  unfold Board.compute_adjacents
  refine foldl_pres (fun x : Board => x.cells.map (fun y => y.state.is_mine)) _ _ _ ?_
  intro acc p _
  dsimp only
  split
  · rw [modifyState_cells, map_listModify]; intro x; rfl
  · rfl

theorem cpa_revealed_map (b : Board) :
    b.compute_adjacents.cells.map (fun x => x.state.is_revealed) =
      b.cells.map (fun x => x.state.is_revealed) := by
  unfold Board.compute_adjacents
  refine foldl_pres (fun x : Board => x.cells.map (fun y => y.state.is_revealed)) _ _ _ ?_
  intro acc p _
  dsimp only
  split
  · rw [modifyState_cells, map_listModify]; intro x; rfl
  · rfl

theorem cpa_flags_map (b : Board) :
    b.compute_adjacents.cells.map (fun x => x.state.is_flagged) =
      b.cells.map (fun x => x.state.is_flagged) := by
  unfold Board.compute_adjacents
  refine foldl_pres (fun x : Board => x.cells.map (fun y => y.state.is_flagged)) _ _ _ ?_
  intro acc p _
  dsimp only
  split
  · rw [modifyState_cells, map_listModify]; intro x; rfl
  · rfl

theorem place_mines_cols (b : Board) (sc sr : Int) (sh : List (Int × Int) → List (Int × Int)) :
    (b.place_mines sc sr sh).cols = b.cols := by
  unfold Board.place_mines
  dsimp only
  rw [cpa_cols]
  exact foldl_pres Board.cols _ _ _ (fun acc p _ => by simp)

theorem place_mines_rows (b : Board) (sc sr : Int) (sh : List (Int × Int) → List (Int × Int)) :
    (b.place_mines sc sr sh).rows = b.rows := by
  unfold Board.place_mines
  dsimp only
  rw [cpa_rows]
  exact foldl_pres Board.rows _ _ _ (fun acc p _ => by simp)

theorem place_mines_num_mines (b : Board) (sc sr : Int) (sh : List (Int × Int) → List (Int × Int)) :
    (b.place_mines sc sr sh).num_mines = b.num_mines := by
  unfold Board.place_mines
  dsimp only
  rw [cpa_num_mines]
  exact foldl_pres Board.num_mines _ _ _ (fun acc p _ => by simp)

theorem place_mines_mines_placed (b : Board) (sc sr : Int) (sh : List (Int × Int) → List (Int × Int)) :
    (b.place_mines sc sr sh).mines_placed = true := rfl

theorem place_mines_revealed_count (b : Board) (sc sr : Int) (sh : List (Int × Int) → List (Int × Int)) :
    (b.place_mines sc sr sh).revealed_count = b.revealed_count := by
  unfold Board.place_mines
  dsimp only
  rw [cpa_revealed_count]
  exact foldl_pres Board.revealed_count _ _ _ (fun acc p _ => by simp)

theorem place_mines_game_over (b : Board) (sc sr : Int) (sh : List (Int × Int) → List (Int × Int)) :
    (b.place_mines sc sr sh).game_over = b.game_over := by
  unfold Board.place_mines
  dsimp only
  rw [cpa_game_over]
  exact foldl_pres Board.game_over _ _ _ (fun acc p _ => by simp)

theorem place_mines_win (b : Board) (sc sr : Int) (sh : List (Int × Int) → List (Int × Int)) :
    (b.place_mines sc sr sh).win = b.win := by
  unfold Board.place_mines
  dsimp only
  rw [cpa_win]
  exact foldl_pres Board.win _ _ _ (fun acc p _ => by simp)

theorem place_mines_length (b : Board) (sc sr : Int) (sh : List (Int × Int) → List (Int × Int)) :
    (b.place_mines sc sr sh).cells.length = b.cells.length := by
  unfold Board.place_mines
  dsimp only
  rw [cpa_length]
  exact foldl_pres (fun x : Board => x.cells.length) _ _ _ (fun acc p _ => by simp)

theorem place_mines_revealed_map (b : Board) (sc sr : Int) (sh : List (Int × Int) → List (Int × Int)) :
    (b.place_mines sc sr sh).cells.map (fun x => x.state.is_revealed) =
      b.cells.map (fun x => x.state.is_revealed) := by
  unfold Board.place_mines
  dsimp only
  rw [cpa_revealed_map]
  refine foldl_pres (fun x : Board => x.cells.map (fun y => y.state.is_revealed)) _ _ _ ?_
  intro acc p _
  dsimp only
  rw [modifyState_cells, map_listModify]
  intro x; rfl

theorem place_mines_flags_map (b : Board) (sc sr : Int) (sh : List (Int × Int) → List (Int × Int)) :
    (b.place_mines sc sr sh).cells.map (fun x => x.state.is_flagged) =
      b.cells.map (fun x => x.state.is_flagged) := by
  unfold Board.place_mines
  dsimp only
  rw [cpa_flags_map]
  refine foldl_pres (fun x : Board => x.cells.map (fun y => y.state.is_flagged)) _ _ _ ?_
  intro acc p _
  dsimp only
  rw [modifyState_cells, map_listModify]
  intro x; rfl

end Mines

namespace Mines

theorem check_win_of_game_over {b : Board} (h : b.game_over = true) :
    b.check_win = b := by
  unfold Board.check_win
  rw [if_neg]
  rintro ⟨-, h2⟩
  rw [h] at h2
  exact absurd h2 (by simp)

theorem check_win_of_count_ne {b : Board}
    (h : (b.revealed_count : Int) ≠
      (b.cols : Int) * (b.rows : Int) - (b.num_mines : Int)) :
    b.check_win = b := by
  unfold Board.check_win
  rw [if_neg]
  rintro ⟨h1, -⟩
  exact h h1

theorem check_win_win_mono {b : Board} (h : b.win = true) :
    b.check_win.win = true := by
  unfold Board.check_win
  split
  · rfl
  · exact h

theorem check_win_mines_map (b : Board) :
    b.check_win.cells.map (fun x => x.state.is_mine) =
      b.cells.map (fun x => x.state.is_mine) := by
  unfold Board.check_win
  split
  · simp only [List.map_map]
    refine List.map_congr_left ?_
    intro c _
    simp only [Function.comp_apply]
    split <;> rfl
  · rfl

theorem check_win_flags_map (b : Board) :
    b.check_win.cells.map (fun x => x.state.is_flagged) =
      b.cells.map (fun x => x.state.is_flagged) := by
  unfold Board.check_win
  split
  · simp only [List.map_map]
    refine List.map_congr_left ?_
    intro c _
    simp only [Function.comp_apply]
    split <;> rfl
  · rfl

theorem check_win_adj_map (b : Board) :
    b.check_win.cells.map (fun x => x.state.adjacent) =
      b.cells.map (fun x => x.state.adjacent) := by
  unfold Board.check_win
  split
  · simp only [List.map_map]
    refine List.map_congr_left ?_
    intro c _
    simp only [Function.comp_apply]
    split <;> rfl
  · rfl

theorem ram_mines_map (b : Board) :
    b.reveal_all_mines.cells.map (fun x => x.state.is_mine) =
      b.cells.map (fun x => x.state.is_mine) := by
  unfold Board.reveal_all_mines
  simp only [List.map_map]
  refine List.map_congr_left ?_
  intro c _
  simp only [Function.comp_apply]
  split <;> rfl

theorem ram_flags_map (b : Board) :
    b.reveal_all_mines.cells.map (fun x => x.state.is_flagged) =
      b.cells.map (fun x => x.state.is_flagged) := by
  unfold Board.reveal_all_mines
  simp only [List.map_map]
  refine List.map_congr_left ?_
  intro c _
  simp only [Function.comp_apply]
  split <;> rfl

theorem ram_adj_map (b : Board) :
    b.reveal_all_mines.cells.map (fun x => x.state.adjacent) =
      b.cells.map (fun x => x.state.adjacent) := by
  unfold Board.reveal_all_mines
  simp only [List.map_map]
  refine List.map_congr_left ?_
  intro c _
  simp only [Function.comp_apply]
  split <;> rfl

theorem getCell_ram (b : Board) (c r : Int) :
    b.reveal_all_mines.getCell c r =
      (if (b.getCell c r).is_mine then
        { b.getCell c r with is_revealed := true } else b.getCell c r) := by
  rw [getCell_def, getCell_def]
  have hc : b.reveal_all_mines.cells = b.cells.map (fun c =>
      if c.state.is_mine then ⟨c.col, c.row, { c.state with is_revealed := true }⟩
      else c) := rfl
  rw [ram_cols, hc, List.getElem?_map]
  cases hx : b.cells[idxN b.cols c r]? with
  | none => simp
  | some x => simp only [Option.map_some, Option.getD_some]; split <;> simp_all

end Mines

namespace Mines

@[simp] theorem markRevealed_cols (b : Board) (c r : Int) :
    (b.markRevealed c r).cols = b.cols := rfl

@[simp] theorem markRevealed_rows (b : Board) (c r : Int) :
    (b.markRevealed c r).rows = b.rows := rfl

@[simp] theorem markRevealed_num_mines (b : Board) (c r : Int) :
    (b.markRevealed c r).num_mines = b.num_mines := rfl

@[simp] theorem markRevealed_mines_placed (b : Board) (c r : Int) :
    (b.markRevealed c r).mines_placed = b.mines_placed := rfl

@[simp] theorem markRevealed_revealed_count (b : Board) (c r : Int) :
    (b.markRevealed c r).revealed_count = b.revealed_count + 1 := rfl

@[simp] theorem markRevealed_game_over (b : Board) (c r : Int) :
    (b.markRevealed c r).game_over = b.game_over := rfl

@[simp] theorem markRevealed_win (b : Board) (c r : Int) :
    (b.markRevealed c r).win = b.win := rfl

theorem markRevealed_cells (b : Board) (c r : Int) :
    (b.markRevealed c r).cells =
      listModify b.cells (idxN b.cols c r)
        (fun s => { s with is_revealed := true }) := rfl

@[simp] theorem markRevealed_length (b : Board) (c r : Int) :
    (b.markRevealed c r).cells.length = b.cells.length := by
  rw [markRevealed_cells, length_listModify]

theorem is_inbounds_place_mines (b : Board) (sc sr c r : Int)
    (sh : List (Int × Int) → List (Int × Int)) :
    (b.place_mines sc sr sh).is_inbounds c r = b.is_inbounds c r := by
  unfold Board.is_inbounds
  rw [place_mines_cols, place_mines_rows]

theorem revealFuel_zero (sh : List (Int × Int) → List (Int × Int))
    (b : Board) (c r : Int) : revealFuel sh 0 b c r = b := rfl

theorem revealFuel_oob (sh : List (Int × Int) → List (Int × Int)) (m : Nat)
    (b : Board) (c r : Int) (h : b.is_inbounds c r = false) :
    revealFuel sh (m + 1) b c r = b := by
  rw [revealFuel, if_pos h]

theorem revealFuel_unplaced (sh : List (Int × Int) → List (Int × Int)) (m : Nat)
    (b : Board) (c r : Int) (hin : b.is_inbounds c r = true)
    (hmp : b.mines_placed = false) :
    revealFuel sh (m + 1) b c r =
      revealFuel sh (m + 1) (b.place_mines c r sh) c r := by
  conv_lhs => rw [revealFuel, hin, hmp]
  conv_rhs => rw [revealFuel, is_inbounds_place_mines, hin, place_mines_mines_placed]
  rfl

theorem revealFuel_succ_placed (sh : List (Int × Int) → List (Int × Int))
    (m : Nat) (b : Board) (c r : Int)
    (hin : b.is_inbounds c r = true) (hmp : b.mines_placed = true) :
    revealFuel sh (m + 1) b c r =
      if (b.getCell c r).is_revealed || (b.getCell c r).is_flagged then b
      else if (b.getCell c r).is_mine then
        ({ b.markRevealed c r with game_over := true }).reveal_all_mines
      else
        (if (b.getCell c r).adjacent = 0 then
          (nbrs b.cols b.rows c r).foldl
            (fun acc p => revealFuel sh m acc p.1 p.2) (b.markRevealed c r)
        else b.markRevealed c r).check_win := by
  conv_lhs => rw [revealFuel, hin, hmp]
  rfl

end Mines

namespace Mines

theorem revealFuel_mono (P : Board → Prop)
    (sh : List (Int × Int) → List (Int × Int))
    (h0 : ∀ b c r, P b → b.mines_placed = false → P (b.place_mines c r sh))
    (h2 : ∀ b c r, P b →
      P (b.modifyState c r fun s => { s with is_revealed := true }))
    (h3 : ∀ b : Board, P b → P { b with revealed_count := b.revealed_count + 1 })
    (h4 : ∀ b : Board, P b → P ({ b with game_over := true }).reveal_all_mines)
    (h5 : ∀ b : Board, P b → P b.check_win) :
    ∀ n b c r, P b → P (revealFuel sh n b c r) := by
  intro n
  induction n with
  | zero => intro b c r hb; exact hb
  | succ m ih =>
    have key : ∀ b c r, P b → b.mines_placed = true → b.is_inbounds c r = true →
        P (revealFuel sh (m + 1) b c r) := by
      intro b c r hb hmp hin
      rw [revealFuel_succ_placed sh m b c r hin hmp]
      split
      · exact hb
      · have hmark : P (b.markRevealed c r) := h3 _ (h2 b c r hb)
        split
        · exact h4 _ hmark
        · apply h5
          split
          · exact foldl_invar P _ _ _ hmark
              (fun acc p _ hacc => ih acc p.1 p.2 hacc)
          · exact hmark
    intro b c r hb
    by_cases hin : b.is_inbounds c r = true
    · by_cases hmp : b.mines_placed = true
      · exact key b c r hb hmp hin
      · have hmp' : b.mines_placed = false := by
          cases h : b.mines_placed
          · rfl
          · exact absurd h hmp
        rw [revealFuel_unplaced sh m b c r hin hmp']
        exact key _ c r (h0 b c r hb hmp')
          (place_mines_mines_placed b c r sh)
          (by rw [is_inbounds_place_mines]; exact hin)
    · have hin' : b.is_inbounds c r = false := by
        cases h : b.is_inbounds c r
        · rfl
        · exact absurd h hin
      rw [revealFuel_oob sh m b c r hin']
      exact hb

theorem revealFuel_cols (sh : List (Int × Int) → List (Int × Int))
    (n : Nat) (b : Board) (c r : Int) :
    (revealFuel sh n b c r).cols = b.cols := by
  refine revealFuel_mono (fun x => x.cols = b.cols) sh ?_ ?_ ?_ ?_ ?_ n b c r rfl
  · intro b' c' r' h _; rw [place_mines_cols]; exact h
  · intro b' c' r' h; rw [modifyState_cols]; exact h
  · intro b' h; exact h
  · intro b' h; rw [ram_cols]; exact h
  · intro b' h; rw [check_win_cols]; exact h

theorem revealFuel_rows (sh : List (Int × Int) → List (Int × Int))
    (n : Nat) (b : Board) (c r : Int) :
    (revealFuel sh n b c r).rows = b.rows := by
  refine revealFuel_mono (fun x => x.rows = b.rows) sh ?_ ?_ ?_ ?_ ?_ n b c r rfl
  · intro b' c' r' h _; rw [place_mines_rows]; exact h
  · intro b' c' r' h; rw [modifyState_rows]; exact h
  · intro b' h; exact h
  · intro b' h; rw [ram_rows]; exact h
  · intro b' h; rw [check_win_rows]; exact h

theorem revealFuel_num_mines (sh : List (Int × Int) → List (Int × Int))
    (n : Nat) (b : Board) (c r : Int) :
    (revealFuel sh n b c r).num_mines = b.num_mines := by
  refine revealFuel_mono (fun x => x.num_mines = b.num_mines) sh ?_ ?_ ?_ ?_ ?_ n b c r rfl
  · intro b' c' r' h _; rw [place_mines_num_mines]; exact h
  · intro b' c' r' h; rw [modifyState_num_mines]; exact h
  · intro b' h; exact h
  · intro b' h; rw [ram_num_mines]; exact h
  · intro b' h; rw [check_win_num_mines]; exact h

theorem revealFuel_length (sh : List (Int × Int) → List (Int × Int))
    (n : Nat) (b : Board) (c r : Int) :
    (revealFuel sh n b c r).cells.length = b.cells.length := by
  refine revealFuel_mono (fun x => x.cells.length = b.cells.length) sh
    ?_ ?_ ?_ ?_ ?_ n b c r rfl
  · intro b' c' r' h _; rw [place_mines_length]; exact h
  · intro b' c' r' h; rw [modifyState_length]; exact h
  · intro b' h; exact h
  · intro b' h; rw [ram_length]; exact h
  · intro b' h; rw [check_win_length]; exact h

theorem revealFuel_flags_map (sh : List (Int × Int) → List (Int × Int))
    (n : Nat) (b : Board) (c r : Int) :
    (revealFuel sh n b c r).cells.map (fun x => x.state.is_flagged) =
      b.cells.map (fun x => x.state.is_flagged) := by
  refine revealFuel_mono
    (fun x => x.cells.map (fun y => y.state.is_flagged) =
      b.cells.map (fun y => y.state.is_flagged)) sh ?_ ?_ ?_ ?_ ?_ n b c r rfl
  · intro b' c' r' h _; rw [place_mines_flags_map]; exact h
  · intro b' c' r' h
    rw [modifyState_cells, map_listModify _ _ _ _ (fun x => rfl)]; exact h
  · intro b' h; exact h
  · intro b' h; rw [ram_flags_map]; exact h
  · intro b' h; rw [check_win_flags_map]; exact h

theorem revealFuel_mines_placed (sh : List (Int × Int) → List (Int × Int))
    (n : Nat) (b : Board) (c r : Int) (h : b.mines_placed = true) :
    (revealFuel sh n b c r).mines_placed = true := by
  refine revealFuel_mono (fun x => x.mines_placed = true) sh ?_ ?_ ?_ ?_ ?_ n b c r h
  · intro b' c' r' hp hf; rw [hp] at hf; cases hf
  · intro b' c' r' hp; rw [modifyState_mines_placed]; exact hp
  · intro b' hp; exact hp
  · intro b' hp; rw [ram_mines_placed]; exact hp
  · intro b' hp; rw [check_win_mines_placed]; exact hp

theorem revealFuel_game_over_mono (sh : List (Int × Int) → List (Int × Int))
    (n : Nat) (b : Board) (c r : Int) (h : b.game_over = true) :
    (revealFuel sh n b c r).game_over = true := by
  refine revealFuel_mono (fun x => x.game_over = true) sh ?_ ?_ ?_ ?_ ?_ n b c r h
  · intro b' c' r' hp _; rw [place_mines_game_over]; exact hp
  · intro b' c' r' hp; rw [modifyState_game_over]; exact hp
  · intro b' hp; exact hp
  · intro b' hp; rw [ram_game_over]
  · intro b' hp; rw [check_win_game_over]; exact hp

theorem revealFuel_win_mono (sh : List (Int × Int) → List (Int × Int))
    (n : Nat) (b : Board) (c r : Int) (h : b.win = true) :
    (revealFuel sh n b c r).win = true := by
  refine revealFuel_mono (fun x => x.win = true) sh ?_ ?_ ?_ ?_ ?_ n b c r h
  · intro b' c' r' hp _; rw [place_mines_win]; exact hp
  · intro b' c' r' hp; rw [modifyState_win]; exact hp
  · intro b' hp; exact hp
  · intro b' hp; rw [ram_win]; exact hp
  · intro b' hp; exact check_win_win_mono hp

theorem revealFuel_frozen_after_loss (sh : List (Int × Int) → List (Int × Int))
    (n : Nat) (b : Board) (c r : Int) (h : b.game_over = true) :
    (revealFuel sh n b c r).game_over = true ∧
      (revealFuel sh n b c r).win = b.win := by
  refine revealFuel_mono (fun x => x.game_over = true ∧ x.win = b.win) sh
    ?_ ?_ ?_ ?_ ?_ n b c r ⟨h, rfl⟩
  · intro b' c' r' hp _
    rw [place_mines_game_over, place_mines_win]; exact hp
  · intro b' c' r' hp
    rw [modifyState_game_over, modifyState_win]; exact hp
  · intro b' hp; exact hp
  · intro b' hp; rw [ram_game_over, ram_win]; exact ⟨rfl, hp.2⟩
  · intro b' hp
    rw [check_win_of_game_over hp.1]; exact hp

end Mines

namespace Mines

theorem revealFuel_mines_adj_map (sh : List (Int × Int) → List (Int × Int))
    (n : Nat) (b : Board) (c r : Int) (h : b.mines_placed = true) :
    (revealFuel sh n b c r).cells.map (fun x => x.state.is_mine) =
        b.cells.map (fun x => x.state.is_mine) ∧
      (revealFuel sh n b c r).cells.map (fun x => x.state.adjacent) =
        b.cells.map (fun x => x.state.adjacent) := by
  have := revealFuel_mono
    (fun x => x.mines_placed = true ∧
      x.cells.map (fun y => y.state.is_mine) =
        b.cells.map (fun y => y.state.is_mine) ∧
      x.cells.map (fun y => y.state.adjacent) =
        b.cells.map (fun y => y.state.adjacent)) sh
    ?_ ?_ ?_ ?_ ?_ n b c r ⟨h, rfl, rfl⟩
  · exact this.2
  · intro b' c' r' hp hf; rw [hp.1] at hf; cases hf
  · intro b' c' r' hp
    refine ⟨hp.1, ?_, ?_⟩
    · rw [modifyState_cells, map_listModify _ _ _ _ (fun x => rfl)]; exact hp.2.1
    · rw [modifyState_cells, map_listModify _ _ _ _ (fun x => rfl)]; exact hp.2.2
  · intro b' hp; exact hp
  · intro b' hp
    exact ⟨by rw [ram_mines_placed]; exact hp.1,
      by rw [ram_mines_map]; exact hp.2.1, by rw [ram_adj_map]; exact hp.2.2⟩
  · intro b' hp
    exact ⟨by rw [check_win_mines_placed]; exact hp.1,
      by rw [check_win_mines_map]; exact hp.2.1,
      by rw [check_win_adj_map]; exact hp.2.2⟩

theorem toggle_flag_cols (b : Board) (c r : Int) :
    (b.toggle_flag c r).cols = b.cols := by
  unfold Board.toggle_flag
  split
  · rfl
  · dsimp only
    split
    · rfl
    · rw [check_win_cols, modifyState_cols]

theorem toggle_flag_rows (b : Board) (c r : Int) :
    (b.toggle_flag c r).rows = b.rows := by
  unfold Board.toggle_flag
  split
  · rfl
  · dsimp only
    split
    · rfl
    · rw [check_win_rows, modifyState_rows]

theorem toggle_flag_num_mines (b : Board) (c r : Int) :
    (b.toggle_flag c r).num_mines = b.num_mines := by
  unfold Board.toggle_flag
  split
  · rfl
  · dsimp only
    split
    · rfl
    · rw [check_win_num_mines, modifyState_num_mines]

theorem toggle_flag_mines_placed (b : Board) (c r : Int) :
    (b.toggle_flag c r).mines_placed = b.mines_placed := by
  unfold Board.toggle_flag
  split
  · rfl
  · dsimp only
    split
    · rfl
    · rw [check_win_mines_placed, modifyState_mines_placed]

theorem toggle_flag_revealed_count (b : Board) (c r : Int) :
    (b.toggle_flag c r).revealed_count = b.revealed_count := by
  unfold Board.toggle_flag
  split
  · rfl
  · dsimp only
    split
    · rfl
    · rw [check_win_revealed_count, modifyState_revealed_count]

theorem toggle_flag_game_over (b : Board) (c r : Int) :
    (b.toggle_flag c r).game_over = b.game_over := by
  unfold Board.toggle_flag
  split
  · rfl
  · dsimp only
    split
    · rfl
    · rw [check_win_game_over, modifyState_game_over]

theorem toggle_flag_length (b : Board) (c r : Int) :
    (b.toggle_flag c r).cells.length = b.cells.length := by
  unfold Board.toggle_flag
  split
  · rfl
  · dsimp only
    split
    · rfl
    · rw [check_win_length, modifyState_length]

theorem toggle_flag_mines_map (b : Board) (c r : Int) :
    (b.toggle_flag c r).cells.map (fun x => x.state.is_mine) =
      b.cells.map (fun x => x.state.is_mine) := by
  unfold Board.toggle_flag
  split
  · rfl
  · dsimp only
    split
    · rfl
    · rw [check_win_mines_map, modifyState_cells,
        map_listModify _ _ _ _ (fun x => rfl)]

theorem toggle_flag_adj_map (b : Board) (c r : Int) :
    (b.toggle_flag c r).cells.map (fun x => x.state.adjacent) =
      b.cells.map (fun x => x.state.adjacent) := by
  unfold Board.toggle_flag
  split
  · rfl
  · dsimp only
    split
    · rfl
    · rw [check_win_adj_map, modifyState_cells,
        map_listModify _ _ _ _ (fun x => rfl)]

theorem toggle_flag_win_mono (b : Board) (c r : Int) (h : b.win = true) :
    (b.toggle_flag c r).win = true := by
  unfold Board.toggle_flag
  split
  · exact h
  · dsimp only
    split
    · exact h
    · exact check_win_win_mono (by rw [modifyState_win]; exact h)

theorem toggle_flag_frozen_after_loss (b : Board) (c r : Int)
    (h : b.game_over = true) :
    (b.toggle_flag c r).game_over = true ∧ (b.toggle_flag c r).win = b.win := by
  refine ⟨by rw [toggle_flag_game_over]; exact h, ?_⟩
  unfold Board.toggle_flag
  split
  · rfl
  · dsimp only
    split
    · rfl
    · rw [check_win_of_game_over (by rw [modifyState_game_over]; exact h),
        modifyState_win]

end Mines

namespace Mines

theorem revealFuel_mono2 (P : Board → Prop)
    (sh : List (Int × Int) → List (Int × Int))
    (h0 : ∀ b c r, P b → b.mines_placed = false → P (b.place_mines c r sh))
    (hmark : ∀ b c r, P b → b.is_inbounds c r = true →
      (b.getCell c r).is_revealed = false → (b.getCell c r).is_flagged = false →
      P (b.markRevealed c r))
    (h4 : ∀ b : Board, P b → P ({ b with game_over := true }).reveal_all_mines)
    (h5 : ∀ b : Board, P b → P b.check_win) :
    ∀ n b c r, P b → P (revealFuel sh n b c r) := by
  intro n
  induction n with
  | zero => intro b c r hb; exact hb
  | succ m ih =>
    have key : ∀ b c r, P b → b.mines_placed = true → b.is_inbounds c r = true →
        P (revealFuel sh (m + 1) b c r) := by
      intro b c r hb hmp hin
      rw [revealFuel_succ_placed sh m b c r hin hmp]
      split
      · exact hb
      · rename_i hguard
        rw [Bool.or_eq_true, not_or] at hguard
        have hrev : (b.getCell c r).is_revealed = false := by
          cases h : (b.getCell c r).is_revealed
          · rfl
          · exact absurd h hguard.1
        have hfl : (b.getCell c r).is_flagged = false := by
          cases h : (b.getCell c r).is_flagged
          · rfl
          · exact absurd h hguard.2
        have hmk : P (b.markRevealed c r) := hmark b c r hb hin hrev hfl
        split
        · exact h4 _ hmk
        · apply h5
          split
          · exact foldl_invar P _ _ _ hmk
              (fun acc p _ hacc => ih acc p.1 p.2 hacc)
          · exact hmk
    intro b c r hb
    by_cases hin : b.is_inbounds c r = true
    · by_cases hmp : b.mines_placed = true
      · exact key b c r hb hmp hin
      · have hmp' : b.mines_placed = false := by
          cases h : b.mines_placed
          · rfl
          · exact absurd h hmp
        rw [revealFuel_unplaced sh m b c r hin hmp']
        exact key _ c r (h0 b c r hb hmp')
          (place_mines_mines_placed b c r sh)
          (by rw [is_inbounds_place_mines]; exact hin)
    · have hin' : b.is_inbounds c r = false := by
        cases h : b.is_inbounds c r
        · rfl
        · exact absurd h hin
      rw [revealFuel_oob sh m b c r hin']
      exact hb

theorem revealedCells_countP (b : Board) :
    b.revealedCells = b.cells.countP (fun c => c.state.is_revealed) :=
  (List.countP_eq_length_filter _ _).symm

theorem countP_of_map_eq {l l' : List Cell} {g : Cell → Bool}
    (h : l'.map g = l.map g) : l'.countP g = l.countP g := by
  have e1 : l'.countP g = (l'.map g).countP (fun v => v) := by
    rw [List.countP_map]; rfl
  have e2 : l.countP g = (l.map g).countP (fun v => v) := by
    rw [List.countP_map]; rfl
  rw [e1, e2, h]

theorem revealedCells_of_map_eq {b b' : Board}
    (h : b'.cells.map (fun x => x.state.is_revealed) =
      b.cells.map (fun x => x.state.is_revealed)) :
    b'.revealedCells = b.revealedCells := by
  rw [revealedCells_countP, revealedCells_countP]
  exact countP_of_map_eq h

theorem markRevealed_revealedCells {b : Board} {c r : Int} (hwf : WF b)
    (hin : b.is_inbounds c r = true)
    (hrev : (b.getCell c r).is_revealed = false) :
    (b.markRevealed c r).revealedCells = b.revealedCells + 1 := by
  have hlt : idxN b.cols c r < b.cells.length := by
    rw [hwf]; exact idxN_lt hin
  rw [revealedCells_countP, revealedCells_countP, markRevealed_cells]
  refine countP_listModify_flip _ _ _ _ hlt ?_
  intro x hx
  constructor
  · rfl
  · rw [getCell_def] at hrev
    rw [hx] at hrev
    exact hrev

theorem WF_new (cols rows mines : Nat) : WF (Board.new cols rows mines) := by
  show (Board.new cols rows mines).cells.length =
    (Board.new cols rows mines).rows * (Board.new cols rows mines).cols
  unfold Board.new
  dsimp only
  rw [List.length_flatMap]
  have h1 : List.map (List.length ∘ fun r : Nat =>
      List.map (fun c : Nat => (⟨(c : Int), (r : Int), default⟩ : Cell))
        (List.range cols)) (List.range rows) = List.replicate rows cols := by
    refine List.eq_replicate_iff.mpr ⟨by simp, ?_⟩
    intro x hx
    rw [List.mem_map] at hx
    obtain ⟨r, hr, rfl⟩ := hx
    simp [Function.comp]
  rw [h1, List.sum_replicate, smul_eq_mul]

theorem WF_revealFuel {b : Board} (hwf : WF b)
    (sh : List (Int × Int) → List (Int × Int)) (n : Nat) (c r : Int) :
    WF (revealFuel sh n b c r) := by
  unfold WF
  rw [revealFuel_length, revealFuel_rows, revealFuel_cols]
  exact hwf

theorem WF_toggle_flag {b : Board} (hwf : WF b) (c r : Int) :
    WF (b.toggle_flag c r) := by
  unfold WF
  rw [toggle_flag_length, toggle_flag_rows, toggle_flag_cols]
  exact hwf

theorem reachable_WF {b : Board} (hb : Reachable b) : WF b := by
  induction hb with
  | new cols rows mines => exact WF_new cols rows mines
  | reveal b c r sh hp hb ih => exact WF_revealFuel ih sh _ c r
  | flag b c r hb ih => exact WF_toggle_flag ih c r

theorem check_win_of_win_false {b : Board} (h : b.check_win.win = false) :
    b.check_win = b := by
  by_cases hg :
    (b.revealed_count : Int) =
        (b.cols : Int) * (b.rows : Int) - (b.num_mines : Int) ∧
      b.game_over = false
  · exfalso
    have : b.check_win.win = true := by
      unfold Board.check_win
      rw [if_pos hg]
    rw [this] at h
    cases h
  · unfold Board.check_win
    rw [if_neg hg]

end Mines

namespace Mines

theorem WF_place_mines {b : Board} (hwf : WF b) (sc sr : Int)
    (sh : List (Int × Int) → List (Int × Int)) :
    WF (b.place_mines sc sr sh) := by
  unfold WF
  rw [place_mines_length, place_mines_rows, place_mines_cols]
  exact hwf

theorem WF_markRevealed {b : Board} (hwf : WF b) (c r : Int) :
    WF (b.markRevealed c r) := by
  unfold WF
  rw [markRevealed_length, markRevealed_rows, markRevealed_cols]
  exact hwf

theorem WF_check_win {b : Board} (hwf : WF b) : WF b.check_win := by
  unfold WF
  rw [check_win_length, check_win_rows, check_win_cols]
  exact hwf

theorem WF_ram {b : Board} (hwf : WF b) : WF b.reveal_all_mines := by
  unfold WF
  rw [ram_length, ram_rows, ram_cols]
  exact hwf

theorem revealFuel_count_invar (sh : List (Int × Int) → List (Int × Int))
    (n : Nat) (b : Board) (c r : Int)
    (hP : WF b ∧ (b.game_over = false → b.win = false →
      b.revealed_count = b.revealedCells)) :
    WF (revealFuel sh n b c r) ∧
      ((revealFuel sh n b c r).game_over = false →
        (revealFuel sh n b c r).win = false →
        (revealFuel sh n b c r).revealed_count =
          (revealFuel sh n b c r).revealedCells) := by
  refine revealFuel_mono2 (fun x => WF x ∧ (x.game_over = false →
    x.win = false → x.revealed_count = x.revealedCells)) sh
    ?_ ?_ ?_ ?_ n b c r hP
  · intro b' c' r' hp _
    refine ⟨WF_place_mines hp.1 c' r' sh, ?_⟩
    intro hg hw
    rw [place_mines_game_over] at hg
    rw [place_mines_win] at hw
    rw [place_mines_revealed_count,
      revealedCells_of_map_eq (place_mines_revealed_map b' c' r' sh)]
    exact hp.2 hg hw
  · intro b' c' r' hp hin hrev _
    refine ⟨WF_markRevealed hp.1 c' r', ?_⟩
    intro hg hw
    rw [markRevealed_game_over] at hg
    rw [markRevealed_win] at hw
    rw [markRevealed_revealed_count, markRevealed_revealedCells hp.1 hin hrev]
    rw [hp.2 hg hw]
  · intro b' hp
    refine ⟨WF_ram (by unfold WF; simpa using hp.1), ?_⟩
    intro hg _
    rw [ram_game_over] at hg
    cases hg
  · intro b' hp
    refine ⟨WF_check_win hp.1, ?_⟩
    intro hg hw
    have he := check_win_of_win_false hw
    rw [he] at hg hw ⊢
    exact hp.2 hg hw

theorem toggle_count_invar (b : Board) (c r : Int)
    (hP : WF b ∧ (b.game_over = false → b.win = false →
      b.revealed_count = b.revealedCells)) :
    WF (b.toggle_flag c r) ∧
      ((b.toggle_flag c r).game_over = false →
        (b.toggle_flag c r).win = false →
        (b.toggle_flag c r).revealed_count =
          (b.toggle_flag c r).revealedCells) := by
  refine ⟨WF_toggle_flag hP.1 c r, ?_⟩
  intro hg hw
  rw [toggle_flag_game_over] at hg
  rw [toggle_flag_revealed_count]
  unfold Board.toggle_flag at hw ⊢
  split at hw
  · rw [if_pos (by assumption)]
    exact hP.2 hg hw
  · dsimp only at hw ⊢
    rw [if_neg (by assumption)]
    split at hw
    · rw [if_pos (by assumption)]
      exact hP.2 hg hw
    · rw [if_neg (by assumption)]
      have he := check_win_of_win_false hw
      rw [he]
      rw [he, modifyState_win] at hw
      have hm : (b.modifyState c r fun s =>
          { s with is_flagged := !s.is_flagged }).revealedCells =
          b.revealedCells :=
        revealedCells_of_map_eq
          (by rw [modifyState_cells]; exact map_listModify _ _ _ _ (fun x => rfl))
      rw [hm]
      exact hP.2 hg hw

theorem revealedCells_new (cols rows mines : Nat) :
    (Board.new cols rows mines).revealedCells = 0 := by
  unfold Board.revealedCells
  rw [List.filter_eq_nil_iff.mpr ?_]
  · rfl
  · intro x hx
    unfold Board.new at hx
    dsimp only at hx
    rw [List.mem_flatMap] at hx
    obtain ⟨r, hr, hx⟩ := hx
    rw [List.mem_map] at hx
    obtain ⟨c, hc, rfl⟩ := hx
    simp

theorem reachable_count_invariant {b : Board} (hb : Reachable b) :
    WF b ∧ (b.game_over = false → b.win = false →
      b.revealed_count = b.revealedCells) := by
  induction hb with
  | new cols rows mines =>
    refine ⟨WF_new cols rows mines, fun _ _ => ?_⟩
    rw [revealedCells_new]
    rfl
  | reveal b c r sh hp hb ih => exact revealFuel_count_invar sh _ b c r ih
  | flag b c r hb ih => exact toggle_count_invar b c r ih

/-- C4 (amended): in every reachable board state in which `game_over` and
`win` are both false, `revealed_count` equals the number of cells whose
`is_revealed` is true.  (Once the game is lost or won, the sweeps in
`_reveal_all_mines` and `_check_win` reveal cells without incrementing the
counter, so the equality can fail — see the counterexample.) -/
theorem c4_count_amended (b : Board) (hb : Reachable b)
    (hgo : b.game_over = false) (hwin : b.win = false) :
    b.revealed_count = b.revealedCells :=
  (reachable_count_invariant hb).2 hgo hwin

/-- Witness for the amended C4 at the concrete reachable mid-game board
`exMid`. -/
theorem c4_count_amended_witness :
    exMid.game_over = false ∧ exMid.win = false ∧
      exMid.revealed_count = exMid.revealedCells :=
  ⟨by decide, by decide, c4_count_amended exMid reach_exMid (by decide) (by decide)⟩

end Mines

namespace Mines

/-- C1 (amended): `game_over` and `win` are each monotone — once true they
remain true after any further `reveal` or `toggle_flag` call, so each flag
is set at most once.  (The claim's stronger assertions fail: the code never
tests `game_over`/`win`, so subsequent calls can still mutate state and
both flags can become true — see the counterexample.) -/
theorem c1_terminal_monotone (b : Board) (c r : Int)
    (sh : List (Int × Int) → List (Int × Int)) :
    (b.game_over = true → (b.reveal c r sh).game_over = true ∧
      (b.toggle_flag c r).game_over = true) ∧
    (b.win = true → (b.reveal c r sh).win = true ∧
      (b.toggle_flag c r).win = true) :=
  ⟨fun h => ⟨revealFuel_game_over_mono sh _ b c r h,
    by rw [toggle_flag_game_over]; exact h⟩,
   fun h => ⟨revealFuel_win_mono sh _ b c r h, toggle_flag_win_mono b c r h⟩⟩

/-- Witness for the amended C1 at the concrete board `exWinThenLose`, where
`game_over` and `win` are both already true. -/
theorem c1_terminal_monotone_witness :
    exWinThenLose.game_over = true ∧ exWinThenLose.win = true ∧
      (exWinThenLose.reveal 1 0 id).game_over = true ∧
      (exWinThenLose.toggle_flag 1 0).game_over = true ∧
      (exWinThenLose.reveal 1 0 id).win = true ∧
      (exWinThenLose.toggle_flag 1 0).win = true :=
  ⟨by decide, by decide,
    ((c1_terminal_monotone exWinThenLose 1 0 id).1 (by decide)).1,
    ((c1_terminal_monotone exWinThenLose 1 0 id).1 (by decide)).2,
    ((c1_terminal_monotone exWinThenLose 1 0 id).2 (by decide)).1,
    ((c1_terminal_monotone exWinThenLose 1 0 id).2 (by decide)).2⟩

end Mines

namespace Mines

/-- C2 (amended): `reveal` is a complete no-op on out-of-bounds coordinates;
on a revealed or flagged target it changes no cell's `is_revealed` or
`is_flagged` and leaves `revealed_count`, `game_over` and `win` untouched,
and when mines were already placed it is a complete no-op.  (On a fresh
board the call still performs mine placement before returning — see the
counterexample.) -/
theorem c2_reveal_noop_amended (b : Board) (c r : Int)
    (sh : List (Int × Int) → List (Int × Int))
    (h : b.is_inbounds c r = false ∨
      (b.getCell c r).is_revealed = true ∨ (b.getCell c r).is_flagged = true) :
    (b.reveal c r sh).cells.map (fun x => x.state.is_revealed) =
        b.cells.map (fun x => x.state.is_revealed) ∧
      (b.reveal c r sh).cells.map (fun x => x.state.is_flagged) =
        b.cells.map (fun x => x.state.is_flagged) ∧
      (b.reveal c r sh).revealed_count = b.revealed_count ∧
      (b.reveal c r sh).game_over = b.game_over ∧
      (b.reveal c r sh).win = b.win ∧
      (b.mines_placed = true → b.reveal c r sh = b) ∧
      (b.is_inbounds c r = false → b.reveal c r sh = b) := by
  have hrev : b.reveal c r sh = revealFuel sh (b.cols * b.rows + 1) b c r := rfl
  by_cases hin : b.is_inbounds c r = true
  · have hguard : (b.getCell c r).is_revealed = true ∨
        (b.getCell c r).is_flagged = true := by
      rcases h with hoob | hg
      · rw [hin] at hoob; cases hoob
      · exact hg
    by_cases hmp : b.mines_placed = true
    · have he : b.reveal c r sh = b := by
        rw [hrev, revealFuel_succ_placed sh _ b c r hin hmp,
          if_pos ((Bool.or_eq_true _ _).mpr hguard)]
      rw [he]
      exact ⟨rfl, rfl, rfl, rfl, rfl, fun _ => rfl, fun _ => rfl⟩
    · have hmp' : b.mines_placed = false := by
        cases hx : b.mines_placed
        · rfl
        · exact absurd hx hmp
      have t1 : ((b.place_mines c r sh).getCell c r).is_revealed =
          (b.getCell c r).is_revealed :=
        getCell_proj (fun s => s.is_revealed) (place_mines_cols b c r sh)
          (place_mines_revealed_map b c r sh) c r
      have t2 : ((b.place_mines c r sh).getCell c r).is_flagged =
          (b.getCell c r).is_flagged :=
        getCell_proj (fun s => s.is_flagged) (place_mines_cols b c r sh)
          (place_mines_flags_map b c r sh) c r
      have he : b.reveal c r sh = b.place_mines c r sh := by
        rw [hrev, revealFuel_unplaced sh _ b c r hin hmp',
          revealFuel_succ_placed sh _ _ c r
            (by rw [is_inbounds_place_mines]; exact hin)
            (place_mines_mines_placed b c r sh),
          if_pos (by rw [t1, t2]; exact (Bool.or_eq_true _ _).mpr hguard)]
      rw [he]
      refine ⟨place_mines_revealed_map b c r sh, place_mines_flags_map b c r sh,
        place_mines_revealed_count b c r sh, place_mines_game_over b c r sh,
        place_mines_win b c r sh, ?_, ?_⟩
      · intro hx
        rw [hx] at hmp'
        cases hmp'
      · intro hx
        rw [hx] at hin
        cases hin
  · have hoob : b.is_inbounds c r = false := by
      cases hx : b.is_inbounds c r
      · rfl
      · exact absurd hx hin
    rw [hrev, revealFuel_oob sh _ b c r hoob]
    exact ⟨rfl, rfl, rfl, rfl, rfl, fun _ => rfl, fun _ => rfl⟩

/-- Witness for the amended C2: revealing the flagged cell `(3,0)` of the
mid-game board `exMidFlag` (mines already placed) is a complete no-op, and
an out-of-bounds reveal at `(9,0)` on a fresh 4-wide board (mines not yet
placed) is also a complete no-op. -/
theorem c2_reveal_noop_amended_witness :
    ((exMidFlag.getCell 3 0).is_flagged = true ∧
      exMidFlag.mines_placed = true) ∧
      exMidFlag.reveal 3 0 id = exMidFlag ∧
      ((Board.new 4 1 1).is_inbounds 9 0 = false ∧
        (Board.new 4 1 1).mines_placed = false ∧
        (Board.new 4 1 1).reveal 9 0 id = Board.new 4 1 1) :=
  ⟨⟨by decide, by decide⟩,
    (c2_reveal_noop_amended exMidFlag 3 0 id
      (Or.inr (Or.inr (by decide)))).2.2.2.2.2.1 (by decide),
    by decide, by decide,
    (c2_reveal_noop_amended (Board.new 4 1 1) 9 0 id
      (Or.inl (by decide))).2.2.2.2.2.2 (by decide)⟩

end Mines

namespace Mines

theorem listModify_listModify (l : List Cell) (n : Nat)
    (f g : CellState → CellState) :
    listModify (listModify l n f) n g = listModify l n (fun s => g (f s)) := by
  induction l generalizing n with
  | nil => rfl
  | cons x xs ih =>
    cases n with
    | zero => rfl
    | succ m => simp only [listModify, List.cons.injEq, true_and]; exact ih m

theorem listModify_id (l : List Cell) (n : Nat) (f : CellState → CellState)
    (h : ∀ s, f s = s) : listModify l n f = l := by
  induction l generalizing n with
  | nil => rfl
  | cons x xs ih =>
    cases n with
    | zero => simp only [listModify, h]
    | succ m => simp only [listModify, List.cons.injEq, true_and]; exact ih m

theorem modifyState_modifyState (b : Board) (c r : Int)
    (f g : CellState → CellState) :
    (b.modifyState c r f).modifyState c r g =
      b.modifyState c r (fun s => g (f s)) :=
  congrArg (fun l => { b with cells := l })
    (listModify_listModify b.cells (b.index c r).toNat f g)

theorem modifyState_id (b : Board) (c r : Int) (f : CellState → CellState)
    (h : ∀ s, f s = s) : b.modifyState c r f = b := by
  unfold Board.modifyState
  rw [listModify_id b.cells (b.index c r).toNat f h]

theorem toggle_flag_eq_modify {b : Board} {c r : Int}
    (hin : b.is_inbounds c r = true)
    (hrev : (b.getCell c r).is_revealed = false)
    (hg : (b.revealed_count : Int) ≠
        (b.cols : Int) * (b.rows : Int) - (b.num_mines : Int) ∨
      b.game_over = true) :
    b.toggle_flag c r =
      b.modifyState c r fun s => { s with is_flagged := !s.is_flagged } := by
  unfold Board.toggle_flag
  rw [if_neg (by rw [hin]; simp)]
  dsimp only
  rw [if_neg (by rw [hrev]; simp)]
  rcases hg with hne | hgo
  · exact check_win_of_count_ne (by simpa using hne)
  · exact check_win_of_game_over (by simpa using hgo)

/-- C9 (amended): `toggle_flag` is a no-op when out of bounds or when the
target is revealed; otherwise, provided the win-check guard does not fire
(`revealed_count ≠ cols*rows - num_mines`, as in any correctly configured
game, or `game_over`), it inverts exactly the target's `is_flagged` —
`revealed_count`, `game_over`, `win`, the mine layout and every other cell
are untouched — and toggling the same cell twice restores the board
exactly, in particular `flagged_count`.  (Without that proviso the win
check can fire and force-reveal cells — see the counterexample.) -/
theorem c9_toggle_amended (b : Board) (c r : Int) :
    (b.is_inbounds c r = false → b.toggle_flag c r = b) ∧
    (b.is_inbounds c r = true → (b.getCell c r).is_revealed = true →
      b.toggle_flag c r = b) ∧
    (WF b → b.is_inbounds c r = true → (b.getCell c r).is_revealed = false →
      ((b.revealed_count : Int) ≠
          (b.cols : Int) * (b.rows : Int) - (b.num_mines : Int) ∨
        b.game_over = true) →
      (b.toggle_flag c r).getCell c r =
          { b.getCell c r with is_flagged := !(b.getCell c r).is_flagged } ∧
        (∀ c' r', ¬(idxN b.cols c' r' = idxN b.cols c r) →
          (b.toggle_flag c r).getCell c' r' = b.getCell c' r') ∧
        (b.toggle_flag c r).revealed_count = b.revealed_count ∧
        (b.toggle_flag c r).game_over = b.game_over ∧
        (b.toggle_flag c r).win = b.win ∧
        (b.toggle_flag c r).cells.map (fun x => x.state.is_mine) =
          b.cells.map (fun x => x.state.is_mine) ∧
        (b.toggle_flag c r).toggle_flag c r = b ∧
        ((b.toggle_flag c r).toggle_flag c r).flagged_count =
          b.flagged_count) := by
  refine ⟨?_, ?_, ?_⟩
  · intro hoob
    unfold Board.toggle_flag
    rw [if_pos hoob]
  · intro hin hrev
    unfold Board.toggle_flag
    rw [if_neg (by rw [hin]; simp)]
    dsimp only
    rw [if_pos hrev]
  · intro hwf hin hrev hg
    have he := toggle_flag_eq_modify hin hrev hg
    have hdouble : (b.toggle_flag c r).toggle_flag c r = b := by
      have hin2 : (b.toggle_flag c r).is_inbounds c r = true := by
        rw [he]; exact hin
      have hrev2 : ((b.toggle_flag c r).getCell c r).is_revealed = false := by
        rw [he, getCell_modifyState_self hwf hin]
        exact hrev
      have hg2 : ((b.toggle_flag c r).revealed_count : Int) ≠
          ((b.toggle_flag c r).cols : Int) * ((b.toggle_flag c r).rows : Int) -
            ((b.toggle_flag c r).num_mines : Int) ∨
          (b.toggle_flag c r).game_over = true := by
        rw [he]
        simpa using hg
      rw [toggle_flag_eq_modify hin2 hrev2 hg2, he, modifyState_modifyState]
      exact modifyState_id _ _ _ _ (fun s => by cases s; simp)
    refine ⟨?_, ?_, ?_, ?_, ?_, ?_, hdouble, by rw [hdouble]⟩
    · rw [he, getCell_modifyState_self hwf hin]
    · intro c' r' hne
      rw [he, getCell_modifyState_other hne]
    · rw [he, modifyState_revealed_count]
    · rw [he, modifyState_game_over]
    · rw [he, modifyState_win]
    · rw [he, modifyState_cells, map_listModify _ _ _ _ (fun x => rfl)]

/-- Witness for the amended C9 on the reachable mid-game board `exMid`:
toggling the unflagged, unrevealed cell `(3,0)` twice restores the board. -/
theorem c9_toggle_amended_witness :
    (WF exMid ∧ exMid.is_inbounds 3 0 = true ∧
      (exMid.getCell 3 0).is_revealed = false ∧
      (exMid.revealed_count : Int) ≠
        (exMid.cols : Int) * (exMid.rows : Int) - (exMid.num_mines : Int)) ∧
      (exMid.toggle_flag 3 0).toggle_flag 3 0 = exMid :=
  ⟨⟨(by decide : exMid.cells.length = exMid.rows * exMid.cols), by decide,
      by decide, by decide⟩,
    ((c9_toggle_amended exMid 3 0).2.2
      (by decide : exMid.cells.length = exMid.rows * exMid.cols) (by decide)
      (by decide) (Or.inl (by decide))).2.2.2.2.2.2.1⟩

end Mines

namespace Mines

theorem c7_core (b : Board) (c r : Int)
    (sh : List (Int × Int) → List (Int × Int)) (m : Nat)
    (hin : b.is_inbounds c r = true) (hmp : b.mines_placed = true)
    (hcount : (revealFuel sh (m + 1) b c r).revealed_count ≠ b.revealed_count)
    (hgo : (revealFuel sh (m + 1) b c r).game_over = false)
    (hthr : ((revealFuel sh (m + 1) b c r).revealed_count : Int) =
      ((revealFuel sh (m + 1) b c r).cols : Int) *
          ((revealFuel sh (m + 1) b c r).rows : Int) -
        ((revealFuel sh (m + 1) b c r).num_mines : Int)) :
    (revealFuel sh (m + 1) b c r).win = true ∧
      ∀ x ∈ (revealFuel sh (m + 1) b c r).cells, x.state.is_mine = false →
        x.state.is_revealed = true := by
  rw [revealFuel_succ_placed sh m b c r hin hmp] at hcount hgo hthr ⊢
  by_cases hguard :
    ((b.getCell c r).is_revealed || (b.getCell c r).is_flagged) = true
  · rw [if_pos hguard] at hcount
    exact absurd rfl hcount
  · rw [if_neg hguard] at hcount hgo hthr ⊢
    by_cases hmine : (b.getCell c r).is_mine = true
    · rw [if_pos hmine, ram_game_over] at hgo
      cases hgo
    · rw [if_neg hmine] at hcount hgo hthr ⊢
      rw [check_win_game_over] at hgo
      rw [check_win_revealed_count, check_win_cols, check_win_rows,
        check_win_num_mines] at hthr
      constructor
      · unfold Board.check_win
        rw [if_pos ⟨hthr, hgo⟩]
      · unfold Board.check_win
        rw [if_pos ⟨hthr, hgo⟩]
        intro x hx hmine2
        dsimp only at hx
        rw [List.mem_map] at hx
        obtain ⟨x0, hx0, rfl⟩ := hx
        by_cases h1 : x0.state.is_revealed = false ∧ x0.state.is_mine = false
        · rw [if_pos h1]
        · rw [if_neg h1] at hmine2 ⊢
          rcases Decidable.em (x0.state.is_revealed = false) with h2 | h2
          · exact absurd ⟨h2, hmine2⟩ h1
          · cases h3 : x0.state.is_revealed
            · exact absurd h3 h2
            · rfl

/-- C7 (amended): whenever a `reveal` that actually reveals at least one
cell (`revealed_count` changes) completes with
`revealed_count == cols*rows - num_mines` and `game_over == false`, `win`
becomes true and every non-mine cell is revealed.  (A no-op reveal never
reaches `_check_win`, so the original unconditional claim fails on a board
that already satisfies the count condition — see the counterexample.) -/
theorem c7_win_amended (b : Board) (c r : Int)
    (sh : List (Int × Int) → List (Int × Int))
    (hcount : (b.reveal c r sh).revealed_count ≠ b.revealed_count)
    (hgo : (b.reveal c r sh).game_over = false)
    (hthr : ((b.reveal c r sh).revealed_count : Int) =
      ((b.reveal c r sh).cols : Int) * ((b.reveal c r sh).rows : Int) -
        ((b.reveal c r sh).num_mines : Int)) :
    (b.reveal c r sh).win = true ∧
      ∀ x ∈ (b.reveal c r sh).cells, x.state.is_mine = false →
        x.state.is_revealed = true := by
  have hrev : b.reveal c r sh = revealFuel sh (b.cols * b.rows + 1) b c r := rfl
  rw [hrev] at hcount hgo hthr ⊢
  by_cases hin : b.is_inbounds c r = true
  · by_cases hmp : b.mines_placed = true
    · exact c7_core b c r sh _ hin hmp hcount hgo hthr
    · have hmp' : b.mines_placed = false := by
        cases hx : b.mines_placed
        · rfl
        · exact absurd hx hmp
      rw [revealFuel_unplaced sh _ b c r hin hmp'] at hcount hgo hthr ⊢
      refine c7_core (b.place_mines c r sh) c r sh _
        (by rw [is_inbounds_place_mines]; exact hin)
        (place_mines_mines_placed b c r sh) ?_ hgo hthr
      rw [place_mines_revealed_count]
      exact hcount
  · have hoob : b.is_inbounds c r = false := by
      cases hx : b.is_inbounds c r
      · rfl
      · exact absurd hx hin
    rw [revealFuel_oob sh _ b c r hoob] at hcount
    exact absurd rfl hcount

/-- Witness for the amended C7: the winning first reveal on the concrete
3-wide board behind `exWin`. -/
theorem c7_win_amended_witness :
    (((Board.new 3 1 1).reveal 0 0 id).revealed_count ≠
        (Board.new 3 1 1).revealed_count ∧
      ((Board.new 3 1 1).reveal 0 0 id).game_over = false ∧
      ((((Board.new 3 1 1).reveal 0 0 id).revealed_count : Int) =
        (((Board.new 3 1 1).reveal 0 0 id).cols : Int) *
            (((Board.new 3 1 1).reveal 0 0 id).rows : Int) -
          (((Board.new 3 1 1).reveal 0 0 id).num_mines : Int))) ∧
      ((Board.new 3 1 1).reveal 0 0 id).win = true :=
  ⟨⟨by decide, by decide, by decide⟩,
    (c7_win_amended (Board.new 3 1 1) 0 0 id (by decide) (by decide)
      (by decide)).1⟩

end Mines

namespace Mines

theorem reveal_mine_eq {b : Board} {c r : Int}
    (sh : List (Int × Int) → List (Int × Int))
    (hmp : b.mines_placed = true) (hin : b.is_inbounds c r = true)
    (hrev : (b.getCell c r).is_revealed = false)
    (hfl : (b.getCell c r).is_flagged = false)
    (hmine : (b.getCell c r).is_mine = true) :
    b.reveal c r sh =
      ({ b.markRevealed c r with game_over := true }).reveal_all_mines := by
  show revealFuel sh (b.cols * b.rows + 1) b c r = _
  rw [revealFuel_succ_placed sh _ b c r hin hmp,
    if_neg (by rw [hrev, hfl]; simp), if_pos hmine]

theorem ram_all_mines_revealed (b : Board) :
    ∀ x ∈ b.reveal_all_mines.cells, x.state.is_mine = true →
      x.state.is_revealed = true := by
  intro x hx hmine
  unfold Board.reveal_all_mines at hx
  dsimp only at hx
  rw [List.mem_map] at hx
  obtain ⟨x0, hx0, rfl⟩ := hx
  by_cases h1 : x0.state.is_mine = true
  · rw [if_pos h1]
  · rw [if_neg h1] at hmine ⊢
    exact absurd hmine h1

theorem frozen_after_loss {b b2 : Board} (h : ReachFrom b b2)
    (hgo : b.game_over = true) (hwin : b.win = false) :
    b2.game_over = true ∧ b2.win = false := by
  induction h with
  | refl => exact ⟨hgo, hwin⟩
  | reveal b' cx rx shx hpx hrx ih =>
    obtain ⟨h1, h2⟩ := ih
    have hf := revealFuel_frozen_after_loss shx (b'.cols * b'.rows + 1)
      b' cx rx h1
    refine ⟨hf.1, ?_⟩
    show (revealFuel shx (b'.cols * b'.rows + 1) b' cx rx).win = false
    rw [hf.2, h2]
  | flag b' cx rx hrx ih =>
    obtain ⟨h1, h2⟩ := ih
    have hf := toggle_flag_frozen_after_loss b' cx rx h1
    exact ⟨hf.1, by rw [hf.2, h2]⟩

/-- C6: revealing an in-bounds, unrevealed, unflagged mine cell on a board
with mines placed and the game neither lost nor won produces exactly the
loss state: the clicked cell is counted and revealed, `game_over` is set,
all mines are swept revealed — with no flood propagation and no win check
(the result is literally `_reveal_all_mines` of the counted board) — `win`
is false, and `win` remains false while `game_over` remains true after
every subsequent `reveal`/`toggle_flag` sequence. -/
theorem c6_loss (b : Board) (c r : Int)
    (sh : List (Int × Int) → List (Int × Int))
    (hmp : b.mines_placed = true)
    (_hgo : b.game_over = false) (hwin : b.win = false)
    (hin : b.is_inbounds c r = true)
    (hrev : (b.getCell c r).is_revealed = false)
    (hfl : (b.getCell c r).is_flagged = false)
    (hmine : (b.getCell c r).is_mine = true) :
    b.reveal c r sh =
        ({ b.markRevealed c r with game_over := true }).reveal_all_mines ∧
      (b.reveal c r sh).game_over = true ∧
      (b.reveal c r sh).win = false ∧
      (∀ x ∈ (b.reveal c r sh).cells, x.state.is_mine = true →
        x.state.is_revealed = true) ∧
      (∀ b2, ReachFrom (b.reveal c r sh) b2 →
        b2.game_over = true ∧ b2.win = false) := by
  have heq := reveal_mine_eq sh hmp hin hrev hfl hmine
  have hgo2 : (b.reveal c r sh).game_over = true := by
    rw [heq, ram_game_over]
  have hwin2 : (b.reveal c r sh).win = false := by
    rw [heq, ram_win]
    exact hwin
  refine ⟨heq, hgo2, hwin2, ?_, ?_⟩
  · rw [heq]
    exact ram_all_mines_revealed _
  · intro b2 h2
    exact frozen_after_loss h2 hgo2 hwin2

/-- Witness for C6 on the concrete mid-game board `exMidFlag` (mines at
`(2,0)` and `(3,0)`, the latter flagged): revealing the mine `(2,0)`. -/
theorem c6_loss_witness :
    (exMidFlag.mines_placed = true ∧ exMidFlag.game_over = false ∧
      exMidFlag.win = false ∧ exMidFlag.is_inbounds 2 0 = true ∧
      (exMidFlag.getCell 2 0).is_revealed = false ∧
      (exMidFlag.getCell 2 0).is_flagged = false ∧
      (exMidFlag.getCell 2 0).is_mine = true) ∧
      (exMidFlag.reveal 2 0 id).game_over = true ∧
      (exMidFlag.reveal 2 0 id).win = false :=
  ⟨⟨by decide, by decide, by decide, by decide, by decide, by decide,
      by decide⟩,
    (c6_loss exMidFlag 2 0 id (by decide) (by decide) (by decide) (by decide)
      (by decide) (by decide) (by decide)).2.1,
    (c6_loss exMidFlag 2 0 id (by decide) (by decide) (by decide) (by decide)
      (by decide) (by decide) (by decide)).2.2.1⟩

/-- C10: the loss sweep `_reveal_all_mines` leaves every cell's
`is_flagged` unchanged; in particular a mine that was flagged before the
losing reveal ends up simultaneously revealed and flagged, so revealed and
flagged are not mutually exclusive. -/
theorem c10_flags_survive (b : Board) (c r : Int)
    (sh : List (Int × Int) → List (Int × Int))
    (hmp : b.mines_placed = true)
    (hin : b.is_inbounds c r = true)
    (hrev : (b.getCell c r).is_revealed = false)
    (hfl : (b.getCell c r).is_flagged = false)
    (hmine : (b.getCell c r).is_mine = true) :
    (b.reveal c r sh).cells.map (fun x => x.state.is_flagged) =
        b.cells.map (fun x => x.state.is_flagged) ∧
      (∀ x ∈ (b.reveal c r sh).cells, x.state.is_mine = true →
        x.state.is_revealed = true) ∧
      (∀ c' r', (b.getCell c' r').is_mine = true →
        (b.getCell c' r').is_flagged = true →
        ((b.reveal c r sh).getCell c' r').is_revealed = true ∧
          ((b.reveal c r sh).getCell c' r').is_flagged = true) := by
  have heq := reveal_mine_eq sh hmp hin hrev hfl hmine
  have hflags : (b.reveal c r sh).cells.map (fun x => x.state.is_flagged) =
      b.cells.map (fun x => x.state.is_flagged) :=
    revealFuel_flags_map sh _ b c r
  refine ⟨hflags, by rw [heq]; exact ram_all_mines_revealed _, ?_⟩
  intro c' r' hmine' hflag'
  have hmark_mine : ((b.markRevealed c r).getCell c' r').is_mine =
      (b.getCell c' r').is_mine :=
    getCell_proj (fun s => s.is_mine) (markRevealed_cols b c r)
      (by rw [markRevealed_cells]; exact map_listModify _ _ _ _ (fun x => rfl))
      c' r'
  constructor
  · rw [heq]
    have : ({ b.markRevealed c r with game_over := true }).getCell c' r' =
        (b.markRevealed c r).getCell c' r' := rfl
    rw [getCell_ram, this, hmark_mine, hmine']
    simp
  · have := getCell_proj (fun s => s.is_flagged)
      (revealFuel_cols sh (b.cols * b.rows + 1) b c r)
      (revealFuel_flags_map sh (b.cols * b.rows + 1) b c r) c' r'
    rw [show ((b.reveal c r sh).getCell c' r').is_flagged =
      ((revealFuel sh (b.cols * b.rows + 1) b c r).getCell c' r').is_flagged
      from rfl, this]
    exact hflag'

/-- Witness for C10: after `exMidFlag.reveal 2 0`, the flagged mine `(3,0)`
is both revealed and flagged. -/
theorem c10_flags_survive_witness :
    ((exMidFlag.getCell 3 0).is_mine = true ∧
      (exMidFlag.getCell 3 0).is_flagged = true) ∧
      ((exMidFlag.reveal 2 0 id).getCell 3 0).is_revealed = true ∧
      ((exMidFlag.reveal 2 0 id).getCell 3 0).is_flagged = true :=
  ⟨⟨by decide, by decide⟩,
    (c10_flags_survive exMidFlag 2 0 id (by decide) (by decide) (by decide)
      (by decide) (by decide)).2.2 3 0 (by decide) (by decide)⟩

end Mines

namespace Mines

theorem allPositions_length (cols rows : Nat) :
    (allPositions cols rows).length = rows * cols := by
  unfold allPositions
  rw [List.length_flatMap]
  have h1 : List.map (List.length ∘ fun r : Nat =>
      List.map (fun c : Nat => ((c : Int), (r : Int))) (List.range cols))
      (List.range rows) = List.replicate rows cols := by
    refine List.eq_replicate_iff.mpr ⟨by simp, ?_⟩
    intro x hx
    rw [List.mem_map] at hx
    obtain ⟨r, hr, rfl⟩ := hx
    simp [Function.comp]
  rw [h1, List.sum_replicate, smul_eq_mul]

theorem mem_allPositions {cols rows : Nat} {p : Int × Int} :
    p ∈ allPositions cols rows ↔ inB cols rows p.1 p.2 = true := by
  unfold allPositions
  rw [List.mem_flatMap, inB_iff]
  constructor
  · rintro ⟨rn, hr, hp⟩
    rw [List.mem_map] at hp
    obtain ⟨cn, hc, rfl⟩ := hp
    rw [List.mem_range] at hr hc
    refine ⟨by positivity, ?_, by positivity, ?_⟩
    · exact (show ((cn : Int) < (cols : Int)) by exact_mod_cast hc)
    · exact (show ((rn : Int) < (rows : Int)) by exact_mod_cast hr)
  · rintro ⟨h1, h2, h3, h4⟩
    refine ⟨p.2.toNat, ?_, ?_⟩
    · rw [List.mem_range]; omega
    · rw [List.mem_map]
      refine ⟨p.1.toNat, by rw [List.mem_range]; omega, ?_⟩
      have e1 : (p.1.toNat : Int) = p.1 := Int.toNat_of_nonneg h1
      have e2 : (p.2.toNat : Int) = p.2 := Int.toNat_of_nonneg h3
      rw [e1, e2]

theorem nodup_allPositions (cols rows : Nat) :
    (allPositions cols rows).Nodup := by
  unfold allPositions
  rw [List.nodup_flatMap]
  constructor
  · intro r _
    refine List.Nodup.map ?_ (List.nodup_range cols)
    intro a b hab
    have : (a : Int) = (b : Int) := congrArg Prod.fst hab
    exact_mod_cast this
  · refine List.Pairwise.imp ?_ (List.pairwise_lt_range rows)
    intro a b hab
    intro x hx hy
    rw [List.mem_map] at hx hy
    obtain ⟨ca, _, rfl⟩ := hx
    obtain ⟨cb, _, he⟩ := hy
    have : (a : Int) = (b : Int) := congrArg Prod.snd he.symm
    have : a = b := by exact_mod_cast this
    omega

theorem new_cells_state (cols rows mines : Nat) :
    ∀ x ∈ (Board.new cols rows mines).cells, x.state = default := by
  intro x hx
  unfold Board.new at hx
  dsimp only at hx
  rw [List.mem_flatMap] at hx
  obtain ⟨r, hr, hx⟩ := hx
  rw [List.mem_map] at hx
  obtain ⟨c, hc, rfl⟩ := hx
  rfl

theorem getCell_new (cols rows mines : Nat) (c r : Int) :
    (Board.new cols rows mines).getCell c r = default := by
  rw [getCell_def]
  cases hx : (Board.new cols rows mines).cells[idxN (Board.new cols rows mines).cols c r]? with
  | none => rfl
  | some x =>
    show x.state = default
    exact new_cells_state cols rows mines x (List.getElem?_mem hx)

theorem mineCells_new (cols rows mines : Nat) :
    (Board.new cols rows mines).mineCells = 0 := by
  unfold Board.mineCells
  rw [List.filter_eq_nil_iff.mpr ?_]
  · rfl
  · intro x hx
    rw [new_cells_state cols rows mines x hx]
    simp

theorem mark_fold_getCell_not_mem (L : List (Int × Int)) :
    ∀ (b0 : Board), (∀ p ∈ L, inB b0.cols b0.rows p.1 p.2 = true) →
    ∀ c r : Int, inB b0.cols b0.rows c r = true → (c, r) ∉ L →
    ((L.foldl (fun acc p =>
        acc.modifyState p.1 p.2 fun s => { s with is_mine := true }) b0).getCell
      c r).is_mine = (b0.getCell c r).is_mine := by
  induction L with
  | nil => intro b0 _ c r _ _; rfl
  | cons p L ih =>
    intro b0 hL c r hin hnot
    rw [List.foldl_cons]
    have hp : inB b0.cols b0.rows p.1 p.2 = true :=
      hL p (List.mem_cons_self _ _)
    have hne : idxN b0.cols c r ≠ idxN b0.cols p.1 p.2 := by
      intro he
      obtain ⟨h1, h2⟩ := idxN_inj hin hp he
      have hpc : (c, r) = p := by
        cases p
        simp only [Prod.mk.injEq]
        exact ⟨h1, h2⟩
      exact hnot (List.mem_cons.mpr (Or.inl hpc))
    have ht := ih (b0.modifyState p.1 p.2 fun s => { s with is_mine := true })
      (fun q hq => hL q (List.mem_cons_of_mem _ hq)) c r hin
      (fun hc => hnot (List.mem_cons_of_mem _ hc))
    rw [ht, getCell_modifyState_other hne]

theorem mark_fold_count (L : List (Int × Int)) :
    ∀ (b0 : Board), WF b0 → L.Nodup →
    (∀ p ∈ L, inB b0.cols b0.rows p.1 p.2 = true) →
    (∀ p ∈ L, (b0.getCell p.1 p.2).is_mine = false) →
    (L.foldl (fun acc p =>
        acc.modifyState p.1 p.2 fun s => { s with is_mine := true })
      b0).mineCells = b0.mineCells + L.length := by
  induction L with
  | nil => intro b0 _ _ _ _; rfl
  | cons p L ih =>
    intro b0 hwf hnd hL hfresh
    rw [List.foldl_cons]
    have hp : inB b0.cols b0.rows p.1 p.2 = true :=
      hL p (List.mem_cons_self _ _)
    have hlt : idxN b0.cols p.1 p.2 < b0.cells.length := by
      rw [hwf]; exact idxN_lt hp
    have hstep : (b0.modifyState p.1 p.2 fun s =>
        { s with is_mine := true }).mineCells = b0.mineCells + 1 := by
      unfold Board.mineCells
      rw [← List.countP_eq_length_filter, ← List.countP_eq_length_filter,
        modifyState_cells]
      refine countP_listModify_flip _ _ _ _ hlt ?_
      intro x hx
      refine ⟨rfl, ?_⟩
      have := hfresh p (List.mem_cons_self _ _)
      rw [getCell_def] at this
      rw [hx] at this
      exact this
    have hres := ih (b0.modifyState p.1 p.2 fun s => { s with is_mine := true })
      (by unfold WF; simpa using hwf)
      (List.Nodup.of_cons hnd)
      (fun q hq => hL q (List.mem_cons_of_mem _ hq))
      ?_
    · rw [hres, hstep, List.length_cons]
      omega
    · intro q hq
      have hq' : inB b0.cols b0.rows q.1 q.2 = true :=
        hL q (List.mem_cons_of_mem _ hq)
      have hne : idxN b0.cols q.1 q.2 ≠ idxN b0.cols p.1 p.2 := by
        intro he
        have heq := idxN_inj hq' hp he
        have : q = p := by
          cases q; cases p
          simp only [Prod.mk.injEq]
          exact ⟨heq.1, heq.2⟩
        rw [this] at hq
        exact (List.Nodup.not_mem hnd) hq
      rw [getCell_modifyState_other hne]
      exact hfresh q (List.mem_cons_of_mem _ hq)

end Mines

namespace Mines

theorem pool_length_ge (b : Board) (sc sr : Int) :
    ((allPositions b.cols b.rows).filter fun p =>
      decide (p ∉ (sc, sr) :: b.neighbors sc sr)).length + 9 ≥
      b.rows * b.cols := by
  set f := (sc, sr) :: b.neighbors sc sr with hf
  have hflen : f.length ≤ 9 := by
    rw [hf, List.length_cons]
    have h8 : (b.neighbors sc sr).length ≤ 8 := by
      unfold Board.neighbors nbrs
      calc (List.filter _ (List.map _ deltas)).length
          ≤ (List.map (fun d => (sc + d.1, sr + d.2)) deltas).length :=
            List.length_filter_le _ _
        _ = 8 := by rw [List.length_map]; rfl
    omega
  have hsplit := List.length_eq_countP_add_countP
    (fun p => decide (p ∈ f)) (allPositions b.cols b.rows)
  have hc : List.countP (fun a => decide ¬(decide (a ∈ f) = true))
      (allPositions b.cols b.rows) =
      ((allPositions b.cols b.rows).filter fun p => decide (p ∉ f)).length := by
    rw [List.countP_eq_length_filter]
    refine congrArg List.length (List.filter_congr ?_)
    intro x _
    simp
  have hdrop : List.countP (fun p => decide (p ∈ f))
      (allPositions b.cols b.rows) ≤ f.length := by
    rw [List.countP_eq_length_filter]
    refine (List.Nodup.subperm ?_ ?_).length_le
    · exact List.Nodup.filter _ (nodup_allPositions _ _)
    · intro x hx
      rw [List.mem_filter] at hx
      exact of_decide_eq_true hx.2
  rw [allPositions_length] at hsplit
  rw [hc] at hsplit
  omega

/-- C3: first-click safety of mine placement.  On a freshly constructed
board with `mines ≤ cols*rows - 9`, the first `reveal` at an in-bounds
cell `(c,r)` places exactly `num_mines` mines, and the clicked cell
together with all of its in-bounds neighbors is mine-free — both facts
still hold of the board state after the whole reveal completes, since the
rest of the reveal never changes `is_mine`. -/
theorem c3_first_click_safety (cols rows mines : Nat) (c r : Int)
    (sh : List (Int × Int) → List (Int × Int))
    (hperm : ∀ l, (sh l).Perm l)
    (hin : inB cols rows c r = true)
    (hmines : mines ≤ cols * rows - 9) :
    ((Board.new cols rows mines).reveal c r sh).mineCells = mines ∧
      ∀ p ∈ (c, r) :: nbrs cols rows c r,
        ((((Board.new cols rows mines).reveal c r sh)).getCell p.1 p.2).is_mine
          = false := by
  set b0 := Board.new cols rows mines with hb0
  have hin' : b0.is_inbounds c r = true := hin
  have heq : b0.reveal c r sh =
      revealFuel sh (b0.cols * b0.rows + 1) (b0.place_mines c r sh) c r :=
    revealFuel_unplaced sh _ b0 c r hin' rfl
  have hplaced : (b0.place_mines c r sh).mines_placed = true :=
    place_mines_mines_placed b0 c r sh
  have hmap := (revealFuel_mines_adj_map sh (b0.cols * b0.rows + 1)
    (b0.place_mines c r sh) c r hplaced).1
  have hpt : ∀ x y : Int, ((b0.reveal c r sh).getCell x y).is_mine =
      ((b0.place_mines c r sh).getCell x y).is_mine := by
    intro x y
    rw [heq]
    exact getCell_proj (fun s => s.is_mine)
      (revealFuel_cols sh _ (b0.place_mines c r sh) c r) hmap x y
  have hcount : (b0.reveal c r sh).mineCells =
      (b0.place_mines c r sh).mineCells := by
    rw [heq]
    unfold Board.mineCells
    rw [← List.countP_eq_length_filter, ← List.countP_eq_length_filter]
    exact countP_of_map_eq hmap
  -- the mine-marking fold
  set M := (sh ((allPositions b0.cols b0.rows).filter fun p =>
    decide (p ∉ (c, r) :: b0.neighbors c r))).take b0.num_mines with hM
  set fold := M.foldl (fun acc p =>
    acc.modifyState p.1 p.2 fun s => { s with is_mine := true }) b0 with hfold
  have hplace : b0.place_mines c r sh =
      { fold.compute_adjacents with mines_placed := true } := rfl
  have hcpa_pt : ∀ x y : Int, ((b0.place_mines c r sh).getCell x y).is_mine =
      (fold.getCell x y).is_mine := by
    intro x y
    rw [hplace]
    exact getCell_proj (fun s => s.is_mine) (cpa_cols fold)
      (cpa_mines_map fold) x y
  have hcpa_count : (b0.place_mines c r sh).mineCells = fold.mineCells := by
    rw [hplace]
    unfold Board.mineCells
    rw [← List.countP_eq_length_filter, ← List.countP_eq_length_filter]
    exact countP_of_map_eq (cpa_mines_map fold)
  -- facts about M
  have hpool_nodup : ((allPositions b0.cols b0.rows).filter fun p =>
      decide (p ∉ (c, r) :: b0.neighbors c r)).Nodup :=
    List.Nodup.filter _ (nodup_allPositions _ _)
  have hM_nodup : M.Nodup := by
    rw [hM]
    exact List.Sublist.nodup (List.take_sublist _ _)
      ((hperm _).symm.nodup hpool_nodup)
  have hM_pool : ∀ q ∈ M, q ∈ (allPositions b0.cols b0.rows).filter fun p =>
      decide (p ∉ (c, r) :: b0.neighbors c r) := by
    intro q hq
    rw [hM] at hq
    exact ((hperm _).mem_iff).mp (List.Sublist.subset (List.take_sublist _ _) hq)
  have hM_inB : ∀ q ∈ M, inB b0.cols b0.rows q.1 q.2 = true := by
    intro q hq
    have := hM_pool q hq
    rw [List.mem_filter] at this
    exact mem_allPositions.mp this.1
  have hM_len : M.length = mines := by
    rw [hM, List.length_take, (hperm _).length_eq]
    have h9 := pool_length_ge b0 c r
    have hcr : b0.rows * b0.cols = rows * cols := rfl
    have hnm : b0.num_mines = mines := rfl
    rw [hnm]
    have : mines ≤ ((allPositions b0.cols b0.rows).filter fun p =>
        decide (p ∉ (c, r) :: b0.neighbors c r)).length := by
      rw [hcr] at h9
      have : cols * rows = rows * cols := Nat.mul_comm cols rows
      omega
    omega
  have hfresh : ∀ q ∈ M, (b0.getCell q.1 q.2).is_mine = false := by
    intro q _
    rw [hb0, getCell_new]
    rfl
  constructor
  · rw [hcount, hcpa_count, hfold]
    rw [mark_fold_count M b0 (by rw [hb0]; exact WF_new cols rows mines)
      hM_nodup hM_inB hfresh]
    rw [hb0, mineCells_new, hM_len]
    omega
  · intro p hp
    have hpin : inB b0.cols b0.rows p.1 p.2 = true := by
      rcases List.mem_cons.mp hp with h | h
      · rw [h]; exact hin
      · unfold nbrs at h
        rw [List.mem_filter] at h
        exact h.2
    have hpnotM : p ∉ M := by
      intro hmem
      have := hM_pool p hmem
      rw [List.mem_filter] at this
      have h2 := of_decide_eq_true this.2
      exact h2 hp
    rw [hpt, hcpa_pt, hfold,
      show p = (p.1, p.2) from rfl] at *
    rw [mark_fold_getCell_not_mem M b0 hM_inB p.1 p.2 hpin
      (by rw [show (p.1, p.2) = p from rfl]; exact hpnotM)]
    rw [hb0, getCell_new]
    rfl

end Mines

namespace Mines

/-- Witness for C3 on a concrete 5-by-5, 3-mine board, first-click `(2,2)`. -/
theorem c3_first_click_safety_witness :
    (inB 5 5 2 2 = true ∧ 3 ≤ 5 * 5 - 9) ∧
      ((Board.new 5 5 3).reveal 2 2 id).mineCells = 3 ∧
      (((Board.new 5 5 3).reveal 2 2 id).getCell 1 1).is_mine = false :=
  ⟨⟨by decide, by decide⟩,
    (c3_first_click_safety 5 5 3 2 2 id perm_id (by decide) (by decide)).1,
    (c3_first_click_safety 5 5 3 2 2 id perm_id (by decide) (by decide)).2
      (1, 1) (by decide)⟩

theorem cpa_fold_adj (cols rows : Nat) :
    ∀ (L : List (Int × Int)) (acc : Board), acc.cols = cols → acc.rows = rows →
      WF acc → L.Nodup → (∀ p ∈ L, inB cols rows p.1 p.2 = true) →
      ∀ c r : Int, inB cols rows c r = true →
      (L.foldl (fun acc p =>
        if (acc.getCell p.1 p.2).is_mine = false then
          acc.modifyState p.1 p.2 fun s => { s with adjacent :=
            ((acc.neighbors p.1 p.2).filter fun q =>
              (acc.getCell q.1 q.2).is_mine).length }
        else acc) acc).getCell c r =
      (if (c, r) ∈ L ∧ (acc.getCell c r).is_mine = false then
        { acc.getCell c r with adjacent :=
          ((nbrs cols rows c r).filter fun q =>
            (acc.getCell q.1 q.2).is_mine).length }
      else acc.getCell c r) := by
  intro L
  induction L with
  | nil =>
    intro acc hc hr hwf hnd hbnd c r hin
    rw [List.foldl_nil, if_neg]
    rintro ⟨hmem, -⟩
    exact (List.not_mem_nil _) hmem
  | cons p L ih =>
    intro acc hc hr hwf hnd hbnd c r hin
    rw [List.foldl_cons]
    have hpin : inB cols rows p.1 p.2 = true := hbnd p (List.mem_cons_self _ _)
    set acc' := (if (acc.getCell p.1 p.2).is_mine = false then
        acc.modifyState p.1 p.2 (fun s => { s with adjacent :=
          ((acc.neighbors p.1 p.2).filter fun q =>
            (acc.getCell q.1 q.2).is_mine).length })
      else acc) with hacc'
    have hc' : acc'.cols = cols := by rw [hacc']; split <;> simpa using hc
    have hr' : acc'.rows = rows := by rw [hacc']; split <;> simpa using hr
    have hwf' : WF acc' := by
      rw [hacc']
      split
      · unfold WF; simpa using hwf
      · exact hwf
    have hmine_pt : ∀ x y : Int, (acc'.getCell x y).is_mine =
        (acc.getCell x y).is_mine := by
      intro x y
      rw [hacc']
      split
      · exact getCell_proj (fun s => s.is_mine) (by simp)
          (by rw [modifyState_cells]; exact map_listModify _ _ _ _ (fun s => rfl))
          x y
      · rfl
    have hcount_pt : ∀ x y : Int,
        ((nbrs cols rows x y).filter fun q => (acc'.getCell q.1 q.2).is_mine) =
          ((nbrs cols rows x y).filter fun q => (acc.getCell q.1 q.2).is_mine) :=
      fun x y => List.filter_congr (fun q _ => hmine_pt q.1 q.2)
    rw [ih acc' hc' hr' hwf' (List.Nodup.of_cons hnd)
      (fun q hq => hbnd q (List.mem_cons_of_mem _ hq)) c r hin]
    by_cases hcr_p : (c, r) = p
    · have hnotL : (c, r) ∉ L := by
        rw [hcr_p]; exact List.Nodup.not_mem hnd
      rw [if_neg (by rintro ⟨hmem, -⟩; exact hnotL hmem)]
      by_cases hmine : (acc.getCell c r).is_mine = false
      · rw [if_pos ⟨List.mem_cons.mpr (Or.inl hcr_p), hmine⟩]
        rw [hacc', ← hcr_p]
        dsimp only
        rw [if_pos hmine]
        rw [getCell_modifyState_self hwf (by rw [hc, hr]; exact hin)]
        unfold Board.neighbors
        rw [hc, hr]
      · rw [if_neg (by rintro ⟨-, hm⟩; exact hmine hm)]
        rw [hacc', ← hcr_p]
        dsimp only
        rw [if_neg hmine]
    · have hacc'_at : acc'.getCell c r = acc.getCell c r := by
        rw [hacc']
        split
        · apply getCell_modifyState_other
          intro he
          have h1 : inB acc.cols acc.rows c r = true := by
            rw [hc, hr]; exact hin
          have h2 : inB acc.cols acc.rows p.1 p.2 = true := by
            rw [hc, hr]; exact hpin
          obtain ⟨e1, e2⟩ := idxN_inj h1 h2 he
          refine hcr_p ?_
          cases p
          simp only [Prod.mk.injEq]
          exact ⟨e1, e2⟩
        · rfl
      rw [hacc'_at, hcount_pt]
      have hmemiff : (c, r) ∈ L ↔ (c, r) ∈ p :: L := by
        refine ⟨fun h => List.mem_cons_of_mem _ h, fun h => ?_⟩
        rcases List.mem_cons.mp h with h | h
        · exact absurd h hcr_p
        · exact h
      exact if_congr (and_congr_left' hmemiff) rfl rfl

end Mines

namespace Mines

theorem cpa_correct {b : Board} (hwf : WF b) : AdjCorrect b.compute_adjacents := by
  intro c r hin hmine
  have hin' : inB b.cols b.rows c r = true := by
    rw [cpa_cols, cpa_rows] at hin
    exact hin
  have hkey : b.compute_adjacents.getCell c r =
      (if (c, r) ∈ allPositions b.cols b.rows ∧
          (b.getCell c r).is_mine = false then
        { b.getCell c r with adjacent :=
          ((nbrs b.cols b.rows c r).filter fun q =>
            (b.getCell q.1 q.2).is_mine).length }
      else b.getCell c r) :=
    cpa_fold_adj b.cols b.rows (allPositions b.cols b.rows) b rfl rfl hwf
      (nodup_allPositions _ _) (fun p hp => mem_allPositions.mp hp) c r hin'
  have hbm : ∀ x y : Int, (b.compute_adjacents.getCell x y).is_mine =
      (b.getCell x y).is_mine :=
    fun x y => getCell_proj (fun s => s.is_mine) (cpa_cols b) (cpa_mines_map b) x y
  have hmine' : (b.getCell c r).is_mine = false := by
    rw [← hbm]
    exact hmine
  rw [hkey, if_pos ⟨mem_allPositions.mpr hin', hmine'⟩]
  have hfe : ((nbrs b.compute_adjacents.cols b.compute_adjacents.rows c r).filter
      fun q => (b.compute_adjacents.getCell q.1 q.2).is_mine) =
      ((nbrs b.cols b.rows c r).filter fun q => (b.getCell q.1 q.2).is_mine) := by
    rw [cpa_cols, cpa_rows]
    exact List.filter_congr (fun q _ => hbm q.1 q.2)
  rw [hfe]

theorem WF_mark_fold (b : Board) (L : List (Int × Int)) (hwf : WF b) :
    WF (L.foldl (fun acc p =>
      acc.modifyState p.1 p.2 fun s => { s with is_mine := true }) b) := by
  unfold WF
  rw [foldl_pres (fun x : Board => x.cells.length) _ _ _ (fun acc p _ => by simp),
    foldl_pres Board.rows _ _ _ (fun acc p _ => by simp),
    foldl_pres Board.cols _ _ _ (fun acc p _ => by simp)]
  exact hwf

/-- C5: after mine placement completes, every cell with `is_mine == false`
has `adjacent` equal to the exact number of its in-bounds neighbors whose
`is_mine` is true. -/
theorem c5_adjacency (b : Board) (hwf : WF b) (sc sr : Int)
    (sh : List (Int × Int) → List (Int × Int)) :
    AdjCorrect (b.place_mines sc sr sh) :=
  cpa_correct (WF_mark_fold b _ hwf)

/-- Witness for C5 on a concrete 4-by-4, 3-mine placement with safe origin
`(0,0)`, checked at the non-mine cell `(3,3)`. -/
theorem c5_adjacency_witness :
    (WF (Board.new 4 4 3) ∧
      inB ((Board.new 4 4 3).place_mines 0 0 id).cols
        ((Board.new 4 4 3).place_mines 0 0 id).rows 3 3 = true ∧
      (((Board.new 4 4 3).place_mines 0 0 id).getCell 3 3).is_mine = false) ∧
      (((Board.new 4 4 3).place_mines 0 0 id).getCell 3 3).adjacent =
        ((nbrs ((Board.new 4 4 3).place_mines 0 0 id).cols
            ((Board.new 4 4 3).place_mines 0 0 id).rows 3 3).filter fun q =>
          (((Board.new 4 4 3).place_mines 0 0 id).getCell q.1 q.2).is_mine).length :=
  ⟨⟨(by decide : (Board.new 4 4 3).cells.length =
      (Board.new 4 4 3).rows * (Board.new 4 4 3).cols), by decide, by decide⟩,
    c5_adjacency (Board.new 4 4 3)
      (by decide : (Board.new 4 4 3).cells.length =
        (Board.new 4 4 3).rows * (Board.new 4 4 3).cols) 0 0 id 3 3
      (by decide) (by decide)⟩

end Mines

namespace Mines

theorem getD_proj {α : Type} (g : CellState → α) {l l' : List Cell}
    (hmap : l'.map (fun c => g c.state) = l.map (fun c => g c.state)) (i : Nat) :
    g ((l'.getD i default).state) = g ((l.getD i default).state) := by
  have hlen : l'.length = l.length := by
    have := congrArg List.length hmap
    simpa using this
  have h := congrArg (fun m => m[i]?) hmap
  simp only [List.getElem?_map] at h
  rw [List.getD_eq_getElem?_getD, List.getD_eq_getElem?_getD]
  rcases h1 : l'[i]? with _ | x
  · have h2 : l[i]? = none := by
      rw [List.getElem?_eq_none_iff] at h1 ⊢
      omega
    rw [h2]
  · rw [h1] at h
    rcases h2 : l[i]? with _ | y
    · rw [h2] at h
      simp at h
    · rw [h2] at h
      simp at h
      simpa using h

theorem region_ok {b : Board} {c r x y : Int} (h : InRegion b c r x y) :
    okAt b x y := by
  induction h with
  | base h0 => exact h0
  | step p q p' q' _ _ _ hok _ => exact hok

theorem region_start_ok {b : Board} {c r x y : Int} (h : InRegion b c r x y) :
    okAt b c r := by
  induction h with
  | base h0 => exact h0
  | step p q p' q' _ _ _ _ ih => exact ih

theorem InRegion_trans {b : Board} {c r p q x y : Int}
    (h1 : InRegion b c r p q) (h2 : InRegion b p q x y) :
    InRegion b c r x y := by
  induction h2 with
  | base _ => exact h1
  | step m1 m2 m1' m2' _ hadj hmem hok ih =>
    exact InRegion.step m1 m2 m1' m2' ih hadj hmem hok

theorem InRegion_prepend {b : Board} {c r x y : Int} {q : Int × Int}
    (hok : okAt b c r) (hadj : (b.getCell c r).adjacent = 0)
    (hq : q ∈ nbrs b.cols b.rows c r)
    (h : InRegion b q.1 q.2 x y) : InRegion b c r x y := by
  refine InRegion_trans ?_ h
  exact InRegion.step c r q.1 q.2 (InRegion.base hok) hadj
    (by cases q; exact hq) (region_start_ok h)

theorem InRegion_mono {bA bB : Board} (hcols : bA.cols = bB.cols)
    (hrows : bA.rows = bB.rows)
    (hflags : ∀ x y : Int, (bA.getCell x y).is_flagged =
      (bB.getCell x y).is_flagged)
    (hadj : ∀ x y : Int, (bA.getCell x y).adjacent = (bB.getCell x y).adjacent)
    (hrev : ∀ x y : Int, (bB.getCell x y).is_revealed = true →
      (bA.getCell x y).is_revealed = true)
    {c r x y : Int} (h : InRegion bA c r x y) : InRegion bB c r x y := by
  have hok : ∀ x y : Int, okAt bA x y → okAt bB x y := by
    intro x y ⟨h1, h2, h3⟩
    refine ⟨by rw [← hcols, ← hrows]; exact h1, ?_, by rw [← hflags]; exact h3⟩
    cases hx : (bB.getCell x y).is_revealed
    · rfl
    · rw [hrev x y hx] at h2
      cases h2
  induction h with
  | base h0 => exact InRegion.base (hok _ _ h0)
  | step p q p' q' _ ha hm h0 ih =>
    refine InRegion.step p q p' q' ih (by rw [← hadj]; exact ha) ?_ (hok _ _ h0)
    rw [← hcols, ← hrows]
    exact hm

theorem RevMono.refl (b : Board) : RevMono b b := ⟨rfl, fun _ h => h⟩

theorem RevMono.trans {a b c : Board} (h1 : RevMono a b) (h2 : RevMono b c) :
    RevMono a c :=
  ⟨by rw [h2.1, h1.1], fun i h => h2.2 i (h1.2 i h)⟩

theorem RevMono.getCell {b b' : Board} (h : RevMono b b')
    (hcols : b'.cols = b.cols) {x y : Int}
    (hx : (b.getCell x y).is_revealed = true) :
    (b'.getCell x y).is_revealed = true := by
  rw [getCell_def] at hx ⊢
  rw [hcols]
  have h2 := h.2 (idxN b.cols x y)
  rw [List.getD_eq_getElem?_getD, List.getD_eq_getElem?_getD] at h2
  exact h2 hx

theorem unrev_add_rev (bd : Board) :
    bd.unrevealedCells + bd.revealedCells = bd.cells.length := by
  unfold Board.unrevealedCells
  rw [revealedCells_countP, ← List.countP_eq_length_filter]
  have h := List.length_eq_countP_add_countP
    (fun c : Cell => c.state.is_revealed) bd.cells
  have hc : List.countP (fun a : Cell => decide ¬(a.state.is_revealed = true))
      bd.cells = List.countP (fun c : Cell => c.state.is_revealed = false)
      bd.cells := by
    refine List.countP_congr ?_
    intro x _
    cases hx : x.state.is_revealed <;> simp [hx]
  omega

theorem countP_unrev_le : ∀ (l l' : List Cell), l'.length = l.length →
    (∀ i : Nat, (l.getD i default).state.is_revealed = true →
      (l'.getD i default).state.is_revealed = true) →
    l'.countP (fun c => c.state.is_revealed = false) ≤
      l.countP (fun c => c.state.is_revealed = false) := by
  intro l
  induction l with
  | nil =>
    intro l' hlen _
    rw [List.length_nil, List.length_eq_zero] at hlen
    rw [hlen]
  | cons x xs ih =>
    intro l' hlen hmono
    cases l' with
    | nil => simp at hlen
    | cons y ys =>
      have h0 := hmono 0
      have hs : ∀ i : Nat, (xs.getD i default).state.is_revealed = true →
          (ys.getD i default).state.is_revealed = true := by
        intro i hi
        exact hmono (i + 1) hi
      have hlen' : ys.length = xs.length := by
        simpa using hlen
      have hih := ih ys hlen' hs
      rw [List.countP_cons, List.countP_cons]
      simp only [List.getD_cons_zero] at h0
      cases hx : x.state.is_revealed with
      | true =>
        have hyr : y.state.is_revealed = true := h0 hx
        rw [hyr]
        omega
      | false =>
        cases hy : y.state.is_revealed with
        | true =>
          have e1 : (if decide (true = false) = true then 1 else 0) = 0 := rfl
          have e2 : (if decide (false = false) = true then 1 else 0) = 1 := rfl
          rw [e1, e2]
          omega
        | false =>
          have e2 : (if decide (false = false) = true then 1 else 0) = 1 := rfl
          rw [e2]
          omega

theorem unrev_le_of_revMono {b b' : Board} (h : RevMono b b') :
    b'.unrevealedCells ≤ b.unrevealedCells := by
  unfold Board.unrevealedCells
  rw [← List.countP_eq_length_filter, ← List.countP_eq_length_filter]
  exact countP_unrev_le b.cells b'.cells h.1 h.2

end Mines

namespace Mines

theorem mem_listModify {l : List Cell} {n : Nat} {f : CellState → CellState}
    {x : Cell} (hx : x ∈ listModify l n f) :
    x ∈ l ∨ ∃ y : Cell, l[n]? = some y ∧ x = ⟨y.col, y.row, f y.state⟩ := by
  induction l generalizing n with
  | nil => cases hx
  | cons a as ih =>
    cases n with
    | zero =>
      rcases List.mem_cons.mp hx with h | h
      · exact Or.inr ⟨a, by simp, h⟩
      · exact Or.inl (List.mem_cons_of_mem _ h)
    | succ m =>
      rcases List.mem_cons.mp hx with h | h
      · exact Or.inl (by rw [h]; exact List.mem_cons_self _ _)
      · rcases ih h with h2 | ⟨y, hy, he⟩
        · exact Or.inl (List.mem_cons_of_mem _ h2)
        · exact Or.inr ⟨y, by simpa using hy, he⟩

theorem revMono_of_map_eq {b b' : Board}
    (h : b'.cells.map (fun x => x.state.is_revealed) =
      b.cells.map (fun x => x.state.is_revealed)) : RevMono b b' := by
  refine ⟨by have := congrArg List.length h; simpa using this, ?_⟩
  intro i hi
  have hp := getD_proj (fun s => s.is_revealed) h i
  rw [hp]
  exact hi

theorem revMono_listModify_set (l : List Cell) (n : Nat)
    (f : CellState → CellState)
    (hf : ∀ s : CellState, s.is_revealed = true → (f s).is_revealed = true)
    (i : Nat) (hi : (l.getD i default).state.is_revealed = true) :
    ((listModify l n f).getD i default).state.is_revealed = true := by
  rw [List.getD_eq_getElem?_getD] at hi ⊢
  rw [getElem?_listModify]
  split
  · cases hx : l[i]? with
    | none =>
      rw [hx] at hi
      exact absurd hi (by simp)
    | some x =>
      rw [hx] at hi
      simp only [Option.map_some', Option.getD_some] at hi ⊢
      exact hf _ hi
  · exact hi

theorem revMono_modify_set (b : Board) (c r : Int)
    (f : CellState → CellState)
    (hf : ∀ s : CellState, s.is_revealed = true → (f s).is_revealed = true) :
    RevMono b (b.modifyState c r f) := by
  refine ⟨modifyState_length b c r f, ?_⟩
  intro i hi
  rw [modifyState_cells]
  exact revMono_listModify_set b.cells _ f hf i hi

theorem revMono_markRevealed (b : Board) (c r : Int) :
    RevMono b (b.markRevealed c r) := by
  refine ⟨markRevealed_length b c r, ?_⟩
  intro i hi
  rw [markRevealed_cells]
  exact revMono_listModify_set b.cells _ _ (fun s _ => rfl) i hi

theorem revMono_ram (b : Board) : RevMono b b.reveal_all_mines := by
  refine ⟨ram_length b, ?_⟩
  intro i hi
  show (((b.cells.map fun c : Cell =>
    if c.state.is_mine then ⟨c.col, c.row, { c.state with is_revealed := true }⟩
    else c).getD i default)).state.is_revealed = true
  rw [List.getD_eq_getElem?_getD, List.getElem?_map]
  rw [List.getD_eq_getElem?_getD] at hi
  cases hx : b.cells[i]? with
  | none =>
    rw [hx] at hi
    simp at hi
  | some x =>
    rw [hx] at hi
    simp only [Option.map_some', Option.getD_some] at hi ⊢
    split
    · rfl
    · exact hi

theorem revMono_check_win (b : Board) : RevMono b b.check_win := by
  unfold Board.check_win
  split
  · refine ⟨by simp, ?_⟩
    intro i hi
    show (((b.cells.map fun c : Cell =>
      if c.state.is_revealed = false ∧ c.state.is_mine = false then
        ⟨c.col, c.row, { c.state with is_revealed := true }⟩
      else c).getD i default)).state.is_revealed = true
    rw [List.getD_eq_getElem?_getD, List.getElem?_map]
    rw [List.getD_eq_getElem?_getD] at hi
    cases hx : b.cells[i]? with
    | none =>
      rw [hx] at hi
      simp at hi
    | some x =>
      rw [hx] at hi
      simp only [Option.map_some', Option.getD_some] at hi ⊢
      split
      · rfl
      · exact hi
  · exact RevMono.refl b

theorem revMono_revealFuel (sh : List (Int × Int) → List (Int × Int))
    (n : Nat) (b : Board) (c r : Int) : RevMono b (revealFuel sh n b c r) := by
  refine revealFuel_mono (fun bd => RevMono b bd) sh ?_ ?_ ?_ ?_ ?_ n b c r
    (RevMono.refl b)
  · intro b' c' r' hp _
    exact hp.trans (revMono_of_map_eq (place_mines_revealed_map b' c' r' sh))
  · intro b' c' r' hp
    exact hp.trans (revMono_modify_set b' c' r' _ (fun s _ => rfl))
  · intro b' hp
    exact hp.trans ⟨rfl, fun _ h => h⟩
  · intro b' hp
    exact (hp.trans ⟨rfl, fun _ h => h⟩).trans
      (revMono_ram { b' with game_over := true })
  · intro b' hp
    exact hp.trans (revMono_check_win b')

theorem getCell_eq_of_cells_eq {bA bB : Board} (hcol : bA.cols = bB.cols)
    (hc : bA.cells = bB.cells) : ∀ x y : Int, bA.getCell x y = bB.getCell x y := by
  intro x y
  rw [getCell_def, getCell_def, hcol, hc]

theorem AdjCorrect_transfer {bA bB : Board} (hcols : bA.cols = bB.cols)
    (hrows : bA.rows = bB.rows)
    (hm : ∀ x y : Int, (bA.getCell x y).is_mine = (bB.getCell x y).is_mine)
    (ha : ∀ x y : Int, (bA.getCell x y).adjacent = (bB.getCell x y).adjacent)
    (h : AdjCorrect bB) : AdjCorrect bA := by
  intro c r hin hmine
  rw [ha, hcols, hrows, List.filter_congr (fun q _ => by rw [hm])]
  exact h c r (by rw [← hcols, ← hrows]; exact hin) (by rw [← hm]; exact hmine)

theorem countP_disjoint_or (p q : Cell → Bool) (l : List Cell)
    (hdisj : ∀ x ∈ l, ¬(p x = true ∧ q x = true)) :
    l.countP (fun x => p x || q x) = l.countP p + l.countP q := by
  induction l with
  | nil => rfl
  | cons a as ih =>
    rw [List.countP_cons, List.countP_cons, List.countP_cons,
      ih (fun x hx => hdisj x (List.mem_cons_of_mem _ hx))]
    have hda := hdisj a (List.mem_cons_self _ _)
    cases hpa : p a <;> cases hqa : q a
    · simp <;> omega
    · simp <;> omega
    · simp <;> omega
    · exact absurd ⟨hpa, hqa⟩ hda

end Mines

namespace Mines

theorem check_win_cells_of_consistent {bd : Board} (hI : Consistent bd) :
    bd.check_win.cells = bd.cells := by
  obtain ⟨hwf, _, hcc, hrs, hme, _⟩ := hI
  unfold Board.check_win
  split
  · rename_i hg
    obtain ⟨hcnt, hgo⟩ := hg
    dsimp only
    have h1 : bd.revealed_count =
        bd.cells.countP (fun c => c.state.is_revealed) := by
      rw [hcc, revealedCells_countP]
    have h2 : bd.cells.countP (fun c => c.state.is_mine) = bd.num_mines := by
      rw [← hme]
      unfold Board.mineCells
      rw [List.countP_eq_length_filter]
    have h4 : bd.rows * bd.cols = bd.cols * bd.rows := Nat.mul_comm _ _
    have hwf' : bd.cells.length = bd.rows * bd.cols := hwf
    have hsum : bd.cells.countP (fun c => c.state.is_revealed) +
        bd.cells.countP (fun c => c.state.is_mine) = bd.cells.length := by
      omega
    have hdisj : ∀ x ∈ bd.cells, ¬((fun c : Cell => c.state.is_revealed) x = true ∧
        (fun c : Cell => c.state.is_mine) x = true) := by
      intro x hx ⟨ha, hb⟩
      have hm : x.state.is_mine = false := hrs x hx ha
      have hb' : x.state.is_mine = true := hb
      rw [hm] at hb'
      cases hb'
    have hor := countP_disjoint_or _ _ bd.cells hdisj
    have hall : ∀ x ∈ bd.cells,
        (x.state.is_revealed || x.state.is_mine) = true := by
      refine List.countP_eq_length.mp ?_
      rw [hor, hsum]
    have hid : ∀ x ∈ bd.cells, (if x.state.is_revealed = false ∧
        x.state.is_mine = false then
        (⟨x.col, x.row, { x.state with is_revealed := true }⟩ : Cell)
      else x) = id x := by
      intro x hx
      rw [if_neg]
      · rfl
      · rintro ⟨ha, hb⟩
        have := hall x hx
        rw [ha, hb] at this
        cases this
    rw [List.map_congr_left hid, List.map_id]
  · rfl

theorem Consistent_check_win {bd : Board} (hI : Consistent bd) :
    Consistent bd.check_win := by
  have hc := check_win_cells_of_consistent hI
  obtain ⟨hwf, hmp, hcc, hrs, hme, hadj⟩ := hI
  refine ⟨?_, ?_, ?_, ?_, ?_, ?_⟩
  · unfold WF
    rw [check_win_length, check_win_rows, check_win_cols]
    exact hwf
  · rw [check_win_mines_placed]
    exact hmp
  · unfold CountConsistent Board.revealedCells
    rw [check_win_revealed_count, hc]
    exact hcc
  · unfold RevealedSafe
    rw [hc]
    exact hrs
  · unfold MinesExact Board.mineCells
    rw [check_win_num_mines, hc]
    exact hme
  · refine AdjCorrect_transfer (check_win_cols bd) (check_win_rows bd) ?_ ?_ hadj
    · intro x y
      rw [getCell_eq_of_cells_eq (check_win_cols bd) hc]
    · intro x y
      rw [getCell_eq_of_cells_eq (check_win_cols bd) hc]

theorem Consistent_markRevealed {b : Board} (hI : Consistent b) {c r : Int}
    (hin : b.is_inbounds c r = true)
    (hrev : (b.getCell c r).is_revealed = false)
    (hmine : (b.getCell c r).is_mine = false) :
    Consistent (b.markRevealed c r) := by
  obtain ⟨hwf, hmp, hcc, hrs, hme, hadj⟩ := hI
  have hmmap : (b.markRevealed c r).cells.map (fun x => x.state.is_mine) =
      b.cells.map (fun x => x.state.is_mine) := by
    rw [markRevealed_cells]
    exact map_listModify _ _ _ _ (fun x => rfl)
  have hamap : (b.markRevealed c r).cells.map (fun x => x.state.adjacent) =
      b.cells.map (fun x => x.state.adjacent) := by
    rw [markRevealed_cells]
    exact map_listModify _ _ _ _ (fun x => rfl)
  refine ⟨WF_markRevealed hwf c r, by simpa using hmp, ?_, ?_, ?_, ?_⟩
  · unfold CountConsistent
    rw [markRevealed_revealed_count, markRevealed_revealedCells hwf hin hrev,
      hcc]
  · intro x hx hxr
    rw [markRevealed_cells] at hx
    rcases mem_listModify hx with h | ⟨y, hy, he⟩
    · exact hrs x h hxr
    · have hys : b.getCell c r = y.state := by
        rw [getCell_def]
        show ((b.cells[idxN b.cols c r]?).getD default).state = y.state
        rw [hy]
        rfl
      rw [he]
      show y.state.is_mine = false
      rw [← hys]
      exact hmine
  · unfold MinesExact Board.mineCells at hme ⊢
    rw [markRevealed_num_mines, ← List.countP_eq_length_filter,
      countP_of_map_eq hmmap, List.countP_eq_length_filter]
    exact hme
  · refine AdjCorrect_transfer (markRevealed_cols b c r)
      (markRevealed_rows b c r) ?_ ?_ hadj
    · intro x y
      exact getCell_proj (fun s => s.is_mine) (markRevealed_cols b c r) hmmap x y
    · intro x y
      exact getCell_proj (fun s => s.adjacent) (markRevealed_cols b c r)
        hamap x y

end Mines

namespace Mines

theorem bool_eq_false {b : Bool} (h : ¬(b = true)) : b = false := by
  cases hb : b
  · rfl
  · exact absurd hb h

theorem getCell_markRevealed_self {b : Board} (hwf : WF b) {c r : Int}
    (h : inB b.cols b.rows c r = true) :
    (b.markRevealed c r).getCell c r =
      { b.getCell c r with is_revealed := true } := by
  have e : (b.markRevealed c r).getCell c r =
      (b.modifyState c r fun s => { s with is_revealed := true }).getCell c r :=
    rfl
  rw [e, getCell_modifyState_self hwf h]

theorem getCell_markRevealed_other {b : Board} {c r x y : Int}
    (hne : idxN b.cols x y ≠ idxN b.cols c r) :
    (b.markRevealed c r).getCell x y = b.getCell x y := by
  have e : (b.markRevealed c r).getCell x y =
      (b.modifyState c r fun s => { s with is_revealed := true }).getCell x y :=
    rfl
  rw [e, getCell_modifyState_other hne]

theorem framesEq_refl (b : Board) : FramesEq b b := ⟨rfl, rfl, rfl, rfl, rfl⟩

theorem framesEq_trans {a b c : Board} (h1 : FramesEq a b)
    (h2 : FramesEq b c) : FramesEq a c := by
  obtain ⟨e1, e2, e3, e4, e5⟩ := h1
  obtain ⟨f1, f2, f3, f4, f5⟩ := h2
  exact ⟨f1.trans e1, f2.trans e2, f3.trans e3, f4.trans e4, f5.trans e5⟩

theorem framesEq_markRevealed (b : Board) (c r : Int) :
    FramesEq b (b.markRevealed c r) := by
  refine ⟨markRevealed_cols b c r, markRevealed_rows b c r, ?_, ?_, ?_⟩ <;>
    (rw [markRevealed_cells]; exact map_listModify _ _ _ _ (fun x => rfl))

theorem framesEq_of_cells_eq {a b : Board} (hcols : b.cols = a.cols)
    (hrows : b.rows = a.rows) (hc : b.cells = a.cells) : FramesEq a b :=
  ⟨hcols, hrows, by rw [hc], by rw [hc], by rw [hc]⟩

theorem framesEq_getCell_mine {b acc : Board} (h : FramesEq b acc) :
    ∀ x y : Int, (acc.getCell x y).is_mine = (b.getCell x y).is_mine :=
  getCell_proj (fun s => s.is_mine) h.1 h.2.2.1

theorem framesEq_getCell_adj {b acc : Board} (h : FramesEq b acc) :
    ∀ x y : Int, (acc.getCell x y).adjacent = (b.getCell x y).adjacent :=
  getCell_proj (fun s => s.adjacent) h.1 h.2.2.2.1

theorem framesEq_getCell_flag {b acc : Board} (h : FramesEq b acc) :
    ∀ x y : Int, (acc.getCell x y).is_flagged = (b.getCell x y).is_flagged :=
  getCell_proj (fun s => s.is_flagged) h.1 h.2.2.2.2

theorem mem_nbrs_inB {cols rows : Nat} {c r : Int} {p : Int × Int}
    (h : p ∈ nbrs cols rows c r) : inB cols rows p.1 p.2 = true := by
  unfold nbrs at h
  exact (List.mem_filter.mp h).2

theorem no_mine_neighbors {b : Board} (hadjC : AdjCorrect b) {c r : Int}
    (hin : inB b.cols b.rows c r = true)
    (hmine : (b.getCell c r).is_mine = false)
    (hadj0 : (b.getCell c r).adjacent = 0) :
    ∀ p q : Int, (p, q) ∈ nbrs b.cols b.rows c r →
      (b.getCell p q).is_mine = false := by
  intro p q hpq
  have h := hadjC c r hin hmine
  rw [hadj0] at h
  have hnil : (nbrs b.cols b.rows c r).filter
      (fun q => (b.getCell q.1 q.2).is_mine) = [] :=
    List.length_eq_zero.mp h.symm
  cases hm : (b.getCell p q).is_mine
  · rfl
  · have hmem : (p, q) ∈ (nbrs b.cols b.rows c r).filter
        (fun q => (b.getCell q.1 q.2).is_mine) :=
      List.mem_filter.mpr ⟨hpq, hm⟩
    rw [hnil] at hmem
    cases hmem

theorem unrev_markRevealed {b : Board} {c r : Int} (hwf : WF b)
    (hin : b.is_inbounds c r = true)
    (hrev : (b.getCell c r).is_revealed = false) :
    (b.markRevealed c r).unrevealedCells + 1 = b.unrevealedCells := by
  have h1 := unrev_add_rev (b.markRevealed c r)
  have h2 := unrev_add_rev b
  have h3 := markRevealed_revealedCells hwf hin hrev
  have h4 : (b.markRevealed c r).cells.length = b.cells.length :=
    markRevealed_length b c r
  omega

theorem AdjCorrect_of_decide {b : Board}
    (h : ∀ p ∈ allPositions b.cols b.rows,
      (b.getCell p.1 p.2).is_mine = false →
      (b.getCell p.1 p.2).adjacent =
        ((nbrs b.cols b.rows p.1 p.2).filter fun q =>
          (b.getCell q.1 q.2).is_mine).length) : AdjCorrect b := by
  intro c r hin hm
  exact h (c, r) (mem_allPositions.mpr hin) hm

theorem floodSpec_same {b : Board} {c r : Int} (hI : Consistent b)
    (hguard : inB b.cols b.rows c r = true →
      (b.getCell c r).is_revealed = false →
      (b.getCell c r).is_flagged = false → False) :
    FloodSpec b b c r := by
  refine ⟨hI, framesEq_refl b, RevMono.refl b, rfl, ?_, ?_, ?_⟩
  · intro x y _ h
    exact Or.inl h
  · intro h1 h2 h3
    exact (hguard h1 h2 h3).elim
  · intro x y _ h1 h2 _ _ _ _ _
    rw [h1] at h2
    exact Bool.noConfusion h2

theorem floodInv_init {b : Board} {c r : Int} (hI : Consistent b)
    (hin : inB b.cols b.rows c r = true)
    (hrev : (b.getCell c r).is_revealed = false)
    (hfl : (b.getCell c r).is_flagged = false)
    (hmine : (b.getCell c r).is_mine = false)
    (L : List (Int × Int))
    (hadjL : (b.getCell c r).adjacent = 0 →
      ∀ p q : Int, (p, q) ∈ nbrs b.cols b.rows c r → (p, q) ∈ L) :
    FloodInv b c r L (b.markRevealed c r) := by
  refine ⟨Consistent_markRevealed hI hin hrev hmine,
    framesEq_markRevealed b c r, RevMono.refl _,
    markRevealed_game_over b c r, ?_, ?_⟩
  · intro x y hxy hx
    by_cases hidx : idxN b.cols x y = idxN b.cols c r
    · obtain ⟨hxc, hyr⟩ := idxN_inj hxy hin hidx
      subst hxc
      subst hyr
      exact Or.inr (InRegion.base ⟨hin, hrev, hfl⟩)
    · rw [getCell_markRevealed_other hidx] at hx
      exact Or.inl hx
  · intro x y hxy h1 h2 hadjx p q hpq hfq
    by_cases hidx : idxN b.cols x y = idxN b.cols c r
    · obtain ⟨hxc, hyr⟩ := idxN_inj hxy hin hidx
      subst hxc
      subst hyr
      exact Or.inr ⟨rfl, rfl, hadjL hadjx p q hpq⟩
    · rw [getCell_markRevealed_other hidx] at h2
      rw [h1] at h2
      exact Bool.noConfusion h2

theorem floodInv_check_win {b acc : Board} {c r : Int} (hwf : WF b)
    (hin : inB b.cols b.rows c r = true)
    (hInv : FloodInv b c r [] acc) :
    FloodSpec b acc.check_win c r := by
  obtain ⟨hIa, hFr, hRM, hGo, hSound, hStab⟩ := hInv
  have hclick : (acc.getCell c r).is_revealed = true := by
    refine hRM.getCell (hFr.1.trans (markRevealed_cols b c r).symm) ?_
    rw [getCell_markRevealed_self hwf hin]
  have hcells : acc.check_win.cells = acc.cells :=
    check_win_cells_of_consistent hIa
  have hget : ∀ x y : Int, acc.check_win.getCell x y = acc.getCell x y :=
    getCell_eq_of_cells_eq (check_win_cols acc) hcells
  refine ⟨Consistent_check_win hIa,
    framesEq_trans hFr
      (framesEq_of_cells_eq (check_win_cols acc) (check_win_rows acc) hcells),
    ((revMono_markRevealed b c r).trans hRM).trans (revMono_check_win acc),
    (check_win_game_over acc).trans hGo, ?_, ?_, ?_⟩
  · intro x y hxy hx
    rw [hget] at hx
    exact hSound x y hxy hx
  · intro _ _ _
    rw [hget]
    exact hclick
  · intro x y hxy h1 h2 hadjx p q hpq hfq
    rw [hget] at h2
    rcases hStab x y hxy h1 h2 hadjx p q hpq hfq with h | ⟨_, _, hmem⟩
    · rw [hget]
      exact h
    · cases hmem

end Mines

namespace Mines

theorem flood_fold (sh : List (Int × Int) → List (Int × Int)) (m : Nat)
    (ih : ∀ (b : Board) (c r : Int), Consistent b →
      b.unrevealedCells < m →
      (inB b.cols b.rows c r = true → (b.getCell c r).is_mine = false) →
      FloodSpec b (revealFuel sh m b c r) c r)
    (b : Board) (c r : Int) (hI : Consistent b)
    (hin : inB b.cols b.rows c r = true)
    (hrev : (b.getCell c r).is_revealed = false)
    (hfl : (b.getCell c r).is_flagged = false)
    (hmine : (b.getCell c r).is_mine = false)
    (hadj0 : (b.getCell c r).adjacent = 0)
    (hfuel : b.unrevealedCells < m + 1) :
    ∀ L : List (Int × Int), (∀ p ∈ L, p ∈ nbrs b.cols b.rows c r) →
      ∀ acc : Board, FloodInv b c r L acc →
      FloodInv b c r []
        (L.foldl (fun acc p => revealFuel sh m acc p.1 p.2) acc) := by
  intro L
  induction L with
  | nil =>
    intro _ acc hInv
    exact hInv
  | cons hd tl ihL =>
    obtain ⟨u, v⟩ := hd
    intro hL acc hInv
    rw [List.foldl_cons]
    refine ihL (fun p hp => hL p (List.mem_cons_of_mem _ hp)) _ ?_
    obtain ⟨hIa, hFr, hRM, hGo, hSound, hStab⟩ := hInv
    have hcols : acc.cols = b.cols := hFr.1
    have hrows : acc.rows = b.rows := hFr.2.1
    have hmem_hd : (u, v) ∈ nbrs b.cols b.rows c r :=
      hL (u, v) (List.mem_cons_self _ _)
    have hin_hd : inB b.cols b.rows u v = true := mem_nbrs_inB hmem_hd
    have hin_hd_acc : inB acc.cols acc.rows u v = true := by
      rw [hcols, hrows]
      exact hin_hd
    have hmine_hd : (b.getCell u v).is_mine = false :=
      no_mine_neighbors hI.2.2.2.2.2 hin hmine hadj0 u v hmem_hd
    have hmine_hd_acc : (acc.getCell u v).is_mine = false := by
      rw [framesEq_getCell_mine hFr]
      exact hmine_hd
    have hb1eq := unrev_markRevealed hI.1 hin hrev
    have hacc_le : acc.unrevealedCells ≤
        (b.markRevealed c r).unrevealedCells := unrev_le_of_revMono hRM
    have hfuel_acc : acc.unrevealedCells < m := by omega
    have hspec := ih acc u v hIa hfuel_acc (fun _ => hmine_hd_acc)
    obtain ⟨hIa2, hFr2, hRM2, hGo2, hSound2, hM3a2, hStab2⟩ := hspec
    have hRMb : RevMono b acc := (revMono_markRevealed b c r).trans hRM
    refine ⟨hIa2, framesEq_trans hFr hFr2, hRM.trans hRM2,
      hGo2.trans hGo, ?_, ?_⟩
    · intro x y hxy hx
      have hxy2 : inB acc.cols acc.rows x y = true := by
        rw [hcols, hrows]
        exact hxy
      rcases hSound2 x y hxy2 hx with hax | hreg
      · exact hSound x y hxy hax
      · right
        have hregb : InRegion b u v x y :=
          InRegion_mono hcols hrows (framesEq_getCell_flag hFr)
            (framesEq_getCell_adj hFr)
            (fun x1 y1 ha => hRMb.getCell hcols ha) hreg
        exact InRegion_prepend ⟨hin, hrev, hfl⟩ hadj0 hmem_hd hregb
    · intro x y hxy h1 h2 hadjx p q hpq hfq
      have hxy2 : inB acc.cols acc.rows x y = true := by
        rw [hcols, hrows]
        exact hxy
      by_cases haccx : (acc.getCell x y).is_revealed = true
      · rcases hStab x y hxy h1 haccx hadjx p q hpq hfq with
          hr | ⟨hxc, hyr, hmemL⟩
        · exact Or.inl (hRM2.getCell hFr2.1 hr)
        · rcases List.mem_cons.mp hmemL with heq | hmemtl
          · left
            have hp1 : p = u := congrArg Prod.fst heq
            have hq1 : q = v := congrArg Prod.snd heq
            rw [hp1, hq1]
            rw [hp1, hq1] at hfq
            by_cases haccpq : (acc.getCell u v).is_revealed = true
            · exact hRM2.getCell hFr2.1 haccpq
            · have haccpq2 : (acc.getCell u v).is_revealed = false :=
                bool_eq_false haccpq
              have hflacc : (acc.getCell u v).is_flagged = false := by
                rw [framesEq_getCell_flag hFr]
                exact hfq
              exact hM3a2 hin_hd_acc haccpq2 hflacc
          · exact Or.inr ⟨hxc, hyr, hmemtl⟩
      · have haccx2 : (acc.getCell x y).is_revealed = false :=
          bool_eq_false haccx
        left
        have hadjacc : (acc.getCell x y).adjacent = 0 := by
          rw [framesEq_getCell_adj hFr]
          exact hadjx
        have hpq2 : (p, q) ∈ nbrs acc.cols acc.rows x y := by
          rw [hcols, hrows]
          exact hpq
        have hfq2 : (acc.getCell p q).is_flagged = false := by
          rw [framesEq_getCell_flag hFr]
          exact hfq
        exact hStab2 x y hxy2 haccx2 h2 hadjacc p q hpq2 hfq2

theorem flood_fuel_spec (sh : List (Int × Int) → List (Int × Int)) :
    ∀ (n : Nat) (b : Board) (c r : Int), Consistent b →
      b.unrevealedCells < n →
      (inB b.cols b.rows c r = true → (b.getCell c r).is_mine = false) →
      FloodSpec b (revealFuel sh n b c r) c r := by
  intro n
  induction n with
  | zero =>
    intro b c r _ hfuel _
    exact absurd hfuel (Nat.not_lt_zero _)
  | succ m ih =>
    intro b c r hI hfuel htarget
    by_cases hin : b.is_inbounds c r = true
    · have hmp : b.mines_placed = true := hI.2.1
      rw [revealFuel_succ_placed sh m b c r hin hmp]
      by_cases hguard :
          ((b.getCell c r).is_revealed || (b.getCell c r).is_flagged) = true
      · rw [if_pos hguard]
        refine floodSpec_same hI ?_
        intro _ h2 h3
        rcases (Bool.or_eq_true _ _).mp hguard with h | h
        · rw [h2] at h
          exact Bool.noConfusion h
        · rw [h3] at h
          exact Bool.noConfusion h
      · rw [if_neg hguard]
        rw [Bool.or_eq_true, not_or] at hguard
        have hrev : (b.getCell c r).is_revealed = false :=
          bool_eq_false hguard.1
        have hfl : (b.getCell c r).is_flagged = false :=
          bool_eq_false hguard.2
        have hinB : inB b.cols b.rows c r = true := hin
        have hmine : (b.getCell c r).is_mine = false := htarget hinB
        have hmn : ¬((b.getCell c r).is_mine = true) := by
          rw [hmine]
          exact fun h => Bool.noConfusion h
        rw [if_neg hmn]
        by_cases hadj : (b.getCell c r).adjacent = 0
        · rw [if_pos hadj]
          have hInv0 : FloodInv b c r (nbrs b.cols b.rows c r)
              (b.markRevealed c r) :=
            floodInv_init hI hinB hrev hfl hmine _ (fun _ p q hpq => hpq)
          have hfold := flood_fold sh m ih b c r hI hinB hrev hfl hmine hadj
            hfuel _ (fun p hp => hp) _ hInv0
          exact floodInv_check_win hI.1 hinB hfold
        · rw [if_neg hadj]
          have hInv1 : FloodInv b c r [] (b.markRevealed c r) :=
            floodInv_init hI hinB hrev hfl hmine []
              (fun h => absurd h hadj)
          exact floodInv_check_win hI.1 hinB hInv1
    · have hin2 : b.is_inbounds c r = false := bool_eq_false hin
      rw [revealFuel_oob sh m b c r hin2]
      refine floodSpec_same hI ?_
      intro h1 _ _
      have h2 : b.is_inbounds c r = true := h1
      rw [h2] at hin2
      exact Bool.noConfusion hin2

end Mines

namespace Mines

/-- C8 (amended): flood-fill reveal on a consistent board.  On any board
satisfying the `Consistent` invariant pack (well-formed cell list, mines
placed, truthful `revealed_count`, no revealed mine, exactly `num_mines`
mines, truthful adjacency counts — all of which hold in a correctly
configured game), revealing an in-bounds, unrevealed, unflagged, non-mine
cell leaves the dimensions, mine layout, adjacency counts, flags and
`game_over` unchanged, and reveals exactly the cells that were already
revealed plus the flood region of the click: the connected zone of
unrevealed, unflagged cells reached from the click across zero-adjacent
cells, together with its boundary of positive-adjacent cells.  When the
clicked cell has `adjacent > 0` that region is the clicked cell alone, so
exactly that one cell is newly revealed. -/
theorem c8_flood_amended (b : Board) (c r : Int)
    (sh : List (Int × Int) → List (Int × Int))
    (hI : Consistent b)
    (hin : inB b.cols b.rows c r = true)
    (hrev : (b.getCell c r).is_revealed = false)
    (hfl : (b.getCell c r).is_flagged = false)
    (hmine : (b.getCell c r).is_mine = false) :
    FramesEq b (b.reveal c r sh) ∧
      (b.reveal c r sh).game_over = b.game_over ∧
      ∀ x y : Int, inB b.cols b.rows x y = true →
        (((b.reveal c r sh).getCell x y).is_revealed = true ↔
          (b.getCell x y).is_revealed = true ∨ InRegion b c r x y) := by
  have hfuel : b.unrevealedCells < b.cols * b.rows + 1 := by
    have h1 := unrev_add_rev b
    have h2 : b.cells.length = b.rows * b.cols := hI.1
    have h3 : b.rows * b.cols = b.cols * b.rows := Nat.mul_comm _ _
    omega
  have hspec := flood_fuel_spec sh (b.cols * b.rows + 1) b c r hI hfuel
    (fun _ => hmine)
  obtain ⟨hIs, hFr, hRM, hGo, hSound, hM3a, hStab⟩ := hspec
  have hcompl : ∀ x y : Int, InRegion b c r x y →
      ((b.reveal c r sh).getCell x y).is_revealed = true := by
    intro x y h
    induction h with
    | base h0 => exact hM3a h0.1 h0.2.1 h0.2.2
    | step p q p' q' hsub hadjpq hmem hok ihr =>
      have hokpq : okAt b p q := region_ok hsub
      exact hStab p q hokpq.1 hokpq.2.1 ihr hadjpq p' q' hmem hok.2.2
  refine ⟨hFr, hGo, ?_⟩
  intro x y hxy
  constructor
  · exact hSound x y hxy
  · rintro (h | h)
    · exact hRM.getCell hFr.1 h
    · exact hcompl x y h

set_option maxRecDepth 4000 in
theorem c8_flood_amended_witness :
    (Consistent cW ∧ inB cW.cols cW.rows 0 0 = true ∧
      (cW.getCell 0 0).is_revealed = false ∧
      (cW.getCell 0 0).is_flagged = false ∧
      (cW.getCell 0 0).is_mine = false) ∧
    (FramesEq cW (cW.reveal 0 0 id) ∧
      (cW.reveal 0 0 id).game_over = cW.game_over ∧
      ∀ x y : Int, inB cW.cols cW.rows x y = true →
        (((cW.reveal 0 0 id).getCell x y).is_revealed = true ↔
          (cW.getCell x y).is_revealed = true ∨ InRegion cW 0 0 x y)) := by
  have hI : Consistent cW :=
    ⟨(by decide : cW.cells.length = cW.rows * cW.cols), rfl,
      (by decide : cW.revealed_count = cW.revealedCells),
      (by decide : ∀ c ∈ cW.cells, c.state.is_revealed = true →
        c.state.is_mine = false),
      (by decide : cW.mineCells = cW.num_mines),
      AdjCorrect_of_decide (by decide)⟩
  exact ⟨⟨hI, by decide, by decide, by decide, by decide⟩,
    c8_flood_amended cW 0 0 id hI (by decide) (by decide) (by decide)
      (by decide)⟩

end Mines
